import Mathlib

/-
Verification of the set-reconciliation engine in
pkg/inventory/container/collection.go.

The Go code is shallowly embedded: records, dispositions and the three
reconciliation phases become Lean functions; the external transaction is a
pair of state-transformers; the lazy sequences are lists (each drained once,
in order).  Where the Go code would panic (slice index out of range in the
default shepherd when the second field list is shorter than the first) the
embedding returns `none`.
-/

namespace Controller

/-- Modelled from the spec: a field produced by the Field Introspector
(pkg/inventory/model, outside src/): a current value, the is-primary-key
flag, the is-auto-incremented flag, and the optional value of the `eq`
annotation tag.  Field values are modelled by `Nat`; Go's
`reflect.DeepEqual` on them is structural equality. -/
structure Field where
  value : Nat
  isPk : Bool
  incremented : Bool
  eqTag : Option String
  deriving DecidableEq

/-- Modelled from the spec: a `model.Model` (outside src/): a stable
primary-key string `Pk()` plus the ordered field list the introspector
reports for it, and the error component of that introspection result
(which `DefaultShepherd` discards with `_`). -/
structure Model where
  pk : String
  fields : List Field
  fieldsErr : Option String
  deriving DecidableEq

/-- DefaultShepherd.ignored (collection.go lines 227-238): a field is
ignored when it is the PK, is (auto) incremented, or carries the tag
`eq:"-"`. -/
def ignored (f : Field) : Bool :=
  if f.isPk || f.incremented then
    true
  else
    match f.eqTag with
    | some tag => tag = "-"
    | none => false

/-- The loop of DefaultShepherd.Equals (lines 190-201): iterate over the
indices of the first field list, index the second list at the same
position (`none` models the Go panic when that index is out of range),
skip ignored fields of the first list, and return `false` on the first
value mismatch. -/
def equalsLoop : List Field → List Field → Option Bool
  | [], _ => some true
  | _ :: _, [] => none
  | fA :: restA, fB :: restB =>
    if ignored fA then
      equalsLoop restA restB
    else if fA.value = fB.value then
      equalsLoop restA restB
    else
      some false

/-- DefaultShepherd.Equals (lines 187-204): introspect both models
(discarding the introspection errors) and run the comparison loop. -/
def defaultEquals (mA mB : Model) : Option Bool :=
  equalsLoop mA.fields mB.fields

/-- The loop of DefaultShepherd.Update (lines 211-219): for every
non-ignored field of the first list, set its value to the same-index value
of the second list (`none` models the Go panic on an out-of-range index). -/
def updateLoop : List Field → List Field → Option (List Field)
  | [], _ => some []
  | _ :: _, [] => none
  | fA :: restA, fB :: restB =>
    (updateLoop restA restB).map
      (fun rest => (if ignored fA then fA else { fA with value := fB.value }) :: rest)

/-- DefaultShepherd.Update (lines 208-220): mutate model A in place;
functionally, return the mutated model. -/
def defaultUpdate (mA mB : Model) : Option Model :=
  (updateLoop mA.fields mB.fields).map (fun fs => { mA with fields := fs })

/-- Total version of `equalsLoop`, equal to it whenever the first list is
not longer than the second (the only case in which the Go loop does not
panic); used to plug the default shepherd into the phase functions. -/
def equalsT : List Field → List Field → Bool
  | [], _ => true
  | _ :: _, [] => true
  | fA :: restA, fB :: restB =>
    if ignored fA then
      equalsT restA restB
    else if fA.value = fB.value then
      equalsT restA restB
    else
      false

/-- Total version of `updateLoop`, equal to it whenever the first list is
not longer than the second. -/
def updateT : List Field → List Field → List Field
  | [], _ => []
  | fs, [] => fs
  | fA :: restA, fB :: restB =>
    (if ignored fA then fA else { fA with value := fB.value }) :: updateT restA restB

/-- The Shepherd interface (lines 16-21): equality test and merge.  Go
mutates the stored model in place; here `update` returns the mutated
model. -/
structure Shepherd where
  equals : Model → Model → Bool
  update : Model → Model → Model

/-- The DefaultShepherd (lines 182-220), on models whose field lists make
the Go loops well defined (first list not longer than the second). -/
def defaultShepherd : Shepherd :=
  { equals := fun mA mB => equalsT mA.fields mB.fields,
    update := fun mA mB => { mA with fields := updateT mA.fields mB.fields } }

/-- Disposition (lines 25-30): per-key pairing of at most one stored and
one desired model; Go nil pointers become `none`. -/
structure Disposition where
  stored : Option Model
  desired : Option Model
  deriving DecidableEq

/-- The disposition map (line 34).  Go's `map[string]*Disposition` is
embedded as an association list with unique keys; insertion replaces an
existing binding in place or appends a fresh one. -/
abbrev Dispositions := List (String × Disposition)

def lookupDpn : Dispositions → String → Option Disposition
  | [], _ => none
  | (k, d) :: rest, key => if k = key then some d else lookupDpn rest key

def setDpn : Dispositions → String → Disposition → Dispositions
  | [], key, d => [(key, d)]
  | (k, d0) :: rest, key, d =>
    if k = key then (key, d) :: rest else (k, d0) :: setDpn rest key d

/-- First loop of Collection.dispositions (lines 96-101): drain the stored
sequence, overwriting the whole entry for each key. -/
def storedPass : Dispositions → List Model → Dispositions
  | mp, [] => mp
  | mp, m :: rest => storedPass (setDpn mp m.pk ⟨some m, none⟩) rest

/-- Second loop of Collection.dispositions (lines 102-111): drain the
desired sequence; a missing key gets a fresh desired-only entry, a present
key gets its desired component set in place (keeping the stored one). -/
def desiredPass : Dispositions → List Model → Dispositions
  | mp, [] => mp
  | mp, m :: rest =>
    match lookupDpn mp m.pk with
    | none => desiredPass (setDpn mp m.pk ⟨none, some m⟩) rest
    | some dpn => desiredPass (setDpn mp m.pk ⟨dpn.stored, some m⟩) rest

/-- Collection.dispositions (lines 94-114). -/
def dispositions (stored desired : List Model) : Dispositions :=
  desiredPass (storedPass [] stored) desired

/-- Modelled from the spec: the Transaction contract (pkg/inventory/model,
outside src/): Insert/Update/Delete apply immediately to some storage
state and report success or an error synchronously. -/
structure Tx (σ ε : Type) where
  insert : σ → Model → σ × Option ε
  update : σ → Model → σ × Option ε
  delete : σ → Model → σ × Option ε

/-- The mutable pieces of a Collection (lines 38-51): the transaction's
storage state plus the three counters. -/
structure CState (σ : Type) where
  db : σ
  added : Nat
  updated : Nat
  deleted : Nat
  deriving DecidableEq

/-- Collection.add (lines 118-131). -/
def addPhase (tx : Tx σ ε) : CState σ → Dispositions → CState σ × Option ε
  | st, [] => (st, none)
  | st, (_, dpn) :: rest =>
    match dpn.desired, dpn.stored with
    | some d, none =>
      match tx.insert st.db d with
      | (db1, none) => addPhase tx { st with db := db1, added := st.added + 1 } rest
      | (db1, some e) => ({ st with db := db1 }, some e)
    | _, _ => addPhase tx st rest

/-- Collection.delete (lines 161-174). -/
def deletePhase (tx : Tx σ ε) : CState σ → Dispositions → CState σ × Option ε
  | st, [] => (st, none)
  | st, (_, dpn) :: rest =>
    match dpn.stored, dpn.desired with
    | some s, none =>
      match tx.delete st.db s with
      | (db1, none) => deletePhase tx { st with db := db1, deleted := st.deleted + 1 } rest
      | (db1, some e) => ({ st with db := db1 }, some e)
    | _, _ => deletePhase tx st rest

/-- Shepherd resolution at the top of Collection.update (lines 136-139). -/
def resolveShepherd : Option Shepherd → Shepherd
  | none => defaultShepherd
  | some s => s

/-- The loop of Collection.update (lines 140-154): skip entries that are
not update candidates, skip entries the shepherd reports equal — note the
Go call is `shepherd.Equals(dpn.desired, dpn.stored)`, desired first —
otherwise merge desired into stored and persist the merged model. -/
def updatePhaseGo (tx : Tx σ ε) (shepherd : Shepherd) :
    CState σ → Dispositions → CState σ × Option ε
  | st, [] => (st, none)
  | st, (_, dpn) :: rest =>
    match dpn.desired, dpn.stored with
    | some d, some s =>
      if shepherd.equals d s then
        updatePhaseGo tx shepherd st rest
      else
        match tx.update st.db (shepherd.update s d) with
        | (db1, none) =>
          updatePhaseGo tx shepherd { st with db := db1, updated := st.updated + 1 } rest
        | (db1, some e) => ({ st with db := db1 }, some e)
    | _, _ => updatePhaseGo tx shepherd st rest

/-- Collection.update (lines 135-157). -/
def updatePhase (tx : Tx σ ε) (shep : Option Shepherd) (st : CState σ)
    (mp : Dispositions) : CState σ × Option ε :=
  updatePhaseGo tx (resolveShepherd shep) st mp

/-- Collection.Reconcile (lines 74-90): build the dispositions once, then
delete, add, update, stopping at the first phase error. -/
def reconcile (tx : Tx σ ε) (shep : Option Shepherd) (stored desired : List Model)
    (st : CState σ) : CState σ × Option ε :=
  let mp := dispositions stored desired
  match deletePhase tx st mp with
  | (st1, some e) => (st1, some e)
  | (st1, none) =>
    match addPhase tx st1 mp with
    | (st2, some e) => (st2, some e)
    | (st2, none) => updatePhase tx shep st2 mp

/-- Positional metadata agreement between two fields: everything but the
value coincides.  Two records of the same Go type satisfy this at every
index (§3 positional-correspondence invariant). -/
def sameMeta (f g : Field) : Bool :=
  (f.isPk = g.isPk) && (f.incremented = g.incremented) && (f.eqTag = g.eqTag)

/-- Positional metadata agreement between two field lists. -/
def sameSchema : List Field → List Field → Bool
  | [], [] => true
  | _ :: _, [] => false
  | [], _ :: _ => false
  | f :: fs, g :: gs => sameMeta f g && sameSchema fs gs

theorem ignored_eq_true_iff (f : Field) :
    ignored f = true ↔ (f.isPk = true ∨ f.incremented = true ∨ f.eqTag = some "-") := by
  rcases f with ⟨v, p, i, t⟩
  cases p <;> cases i <;> cases t <;>
    simp [ignored, decide_eq_true_eq]

theorem sameMeta_fields {f g : Field} (h : sameMeta f g = true) :
    f.isPk = g.isPk ∧ f.incremented = g.incremented ∧ f.eqTag = g.eqTag := by
  simpa [sameMeta, Bool.and_eq_true, decide_eq_true_eq, and_assoc] using h

theorem sameMeta_ignored {f g : Field} (h : sameMeta f g = true) :
    ignored f = ignored g := by
  obtain ⟨h1, h2, h3⟩ := sameMeta_fields h
  simp [ignored, h1, h2, h3]

theorem sameMeta_refl (f : Field) : sameMeta f f = true := by
  simp [sameMeta]

theorem sameSchema_refl : ∀ fs : List Field, sameSchema fs fs = true
  | [] => rfl
  | f :: fs => by simp [sameSchema, sameMeta_refl, sameSchema_refl fs]

theorem sameSchema_length :
    ∀ fsA fsB : List Field, sameSchema fsA fsB = true → fsA.length = fsB.length
  | [], [], _ => rfl
  | _ :: _, [], h => by simp [sameSchema] at h
  | [], _ :: _, h => by simp [sameSchema] at h
  | f :: fs, g :: gs, h => by
    simp only [sameSchema, Bool.and_eq_true] at h
    simp [sameSchema_length fs gs h.2]

theorem sameSchema_get :
    ∀ fsA fsB : List Field, sameSchema fsA fsB = true →
      ∀ i fa fb, fsA.get? i = some fa → fsB.get? i = some fb → sameMeta fa fb = true
  | [], _, _, i, _, _, ha, _ => by simp at ha
  | _ :: _, [], h, _, _, _, _, _ => by simp [sameSchema] at h
  | f :: fs, g :: gs, h, i, fa, fb, ha, hb => by
    simp only [sameSchema, Bool.and_eq_true] at h
    cases i with
    | zero =>
      simp only [List.get?_cons_zero, Option.some.injEq] at ha hb
      rw [← ha, ← hb]; exact h.1
    | succ n =>
      simp only [List.get?_cons_succ] at ha hb
      exact sameSchema_get fs gs h.2 n fa fb ha hb

theorem setValue_eq {fa fb : Field} (h : sameMeta fa fb = true) :
    ({ fa with value := fb.value } : Field) = fb := by
  obtain ⟨h1, h2, h3⟩ := sameMeta_fields h
  rcases fa with ⟨v1, p1, i1, t1⟩
  rcases fb with ⟨v2, p2, i2, t2⟩
  simp_all

theorem equalsLoop_isSome_of_le :
    ∀ fsA fsB : List Field, fsA.length ≤ fsB.length → ∃ b, equalsLoop fsA fsB = some b
  | [], _, _ => ⟨true, rfl⟩
  | _ :: _, [], h => by simp at h
  | fA :: restA, fB :: restB, h => by
    obtain ⟨b, hb⟩ := equalsLoop_isSome_of_le restA restB (by simpa using h)
    by_cases hig : ignored fA = true
    · exact ⟨b, by simp [equalsLoop, hig, hb]⟩
    · by_cases hv : fA.value = fB.value
      · exact ⟨b, by simp [equalsLoop, hig, hv, hb]⟩
      · exact ⟨false, by simp [equalsLoop, hig, hv]⟩

theorem matchShift (fA fB : Field) (restA restB : List Field) :
    (∀ i fa fb, (fA :: restA).get? i = some fa → (fB :: restB).get? i = some fb →
        ignored fa = false → fa.value = fb.value)
    ↔ ((ignored fA = false → fA.value = fB.value)
        ∧ ∀ i fa fb, restA.get? i = some fa → restB.get? i = some fb →
            ignored fa = false → fa.value = fb.value) := by
  constructor
  · intro h
    refine ⟨fun hig => h 0 fA fB rfl rfl hig, fun i fa fb ha hb hig => ?_⟩
    exact h (i + 1) fa fb (by simpa using ha) (by simpa using hb) hig
  · rintro ⟨h0, h⟩ i fa fb ha hb hig
    cases i with
    | zero =>
      simp only [List.get?_cons_zero, Option.some.injEq] at ha hb
      rw [← ha] at hig ⊢
      rw [← hb]
      exact h0 hig
    | succ n =>
      simp only [List.get?_cons_succ] at ha hb
      exact h n fa fb ha hb hig

theorem equalsLoop_eq_some_true_iff :
    ∀ fsA fsB : List Field, fsA.length ≤ fsB.length →
      (equalsLoop fsA fsB = some true ↔
        ∀ i fa fb, fsA.get? i = some fa → fsB.get? i = some fb →
          ignored fa = false → fa.value = fb.value)
  | [], fsB, _ => by
    simp only [equalsLoop, true_iff]
    intro i fa fb ha
    simp at ha
  | _ :: _, [], h => by simp at h
  | fA :: restA, fB :: restB, h => by
    rw [matchShift]
    have ih := equalsLoop_eq_some_true_iff restA restB (by simpa using h)
    by_cases hig : ignored fA = true
    · rw [show equalsLoop (fA :: restA) (fB :: restB) = equalsLoop restA restB by
        simp [equalsLoop, hig]]
      rw [ih]
      constructor
      · intro hrest
        exact ⟨fun hf => absurd hig (by simp [hf]), hrest⟩
      · exact And.right
    · have hig2 : ignored fA = false := by simpa using hig
      by_cases hv : fA.value = fB.value
      · rw [show equalsLoop (fA :: restA) (fB :: restB) = equalsLoop restA restB by
          simp [equalsLoop, hig, hv]]
        rw [ih]
        constructor
        · intro hrest
          exact ⟨fun _ => hv, hrest⟩
        · exact And.right
      · rw [show equalsLoop (fA :: restA) (fB :: restB) = some false by
          simp [equalsLoop, hig, hv]]
        constructor
        · intro hfalse
          exact absurd hfalse (by simp)
        · rintro ⟨h0, _⟩
          exact (hv (h0 hig2)).elim

theorem updateLoop_isSome_of_le :
    ∀ fsA fsB : List Field, fsA.length ≤ fsB.length → ∃ fs, updateLoop fsA fsB = some fs
  | [], _, _ => ⟨[], rfl⟩
  | _ :: _, [], h => by simp at h
  | fA :: restA, fB :: restB, h => by
    obtain ⟨fs, hfs⟩ := updateLoop_isSome_of_le restA restB (by simpa using h)
    refine ⟨(if ignored fA then fA else { fA with value := fB.value }) :: fs, ?_⟩
    simp [updateLoop, hfs]

theorem updateLoop_length :
    ∀ fsA fsB fs1 : List Field, updateLoop fsA fsB = some fs1 → fs1.length = fsA.length
  | [], _, fs1, h => by simp only [updateLoop, Option.some.injEq] at h; simp [← h]
  | _ :: _, [], _, h => by simp [updateLoop] at h
  | fA :: restA, fB :: restB, fs1, h => by
    simp only [updateLoop, Option.map_eq_some'] at h
    obtain ⟨rest1, hrest, hcons⟩ := h
    simp [← hcons, updateLoop_length restA restB rest1 hrest]

theorem updateLoop_get :
    ∀ fsA fsB fs1 : List Field, updateLoop fsA fsB = some fs1 →
      ∀ i fa fb, fsA.get? i = some fa → fsB.get? i = some fb →
        fs1.get? i = some (if ignored fa then fa else { fa with value := fb.value })
  | [], _, _, _, i, fa, _, ha, _ => by simp at ha
  | _ :: _, [], _, h, _, _, _, _, _ => by simp [updateLoop] at h
  | fA :: restA, fB :: restB, fs1, h, i, fa, fb, ha, hb => by
    simp only [updateLoop, Option.map_eq_some'] at h
    obtain ⟨rest1, hrest, hcons⟩ := h
    cases i with
    | zero =>
      simp only [List.get?_cons_zero, Option.some.injEq] at ha hb
      rw [← hcons, ← ha, ← hb]
      simp
    | succ n =>
      simp only [List.get?_cons_succ] at ha hb
      rw [← hcons]
      simpa using updateLoop_get restA restB rest1 hrest n fa fb ha hb

theorem defaultUpdate_eq (mA mB : Model) (fs1 : List Field)
    (h : updateLoop mA.fields mB.fields = some fs1) :
    defaultUpdate mA mB = some { mA with fields := fs1 } := by
  simp [defaultUpdate, h]

/-- C4: in both the Default Strategy's Equals and its Update a field is
ignored iff it is the primary key, is auto-incremented, or carries the
`eq` tag with value `-`; every other field is compared (Equals: result is
`true` iff every non-ignored same-index pair has equal values) or copied
(Update: a non-ignored result field takes the desired value and keeps the
stored metadata, an ignored one is kept whole), and the same predicate
`ignored` governs both operations. -/
theorem c4_field_exclusion_rule :
    (∀ f : Field, ignored f = true ↔ (f.isPk = true ∨ f.incremented = true ∨ f.eqTag = some "-"))
    ∧ (∀ fsA fsB : List Field, fsA.length ≤ fsB.length →
        (equalsLoop fsA fsB = some true ↔
          ∀ i fa fb, fsA.get? i = some fa → fsB.get? i = some fb →
            ignored fa = false → fa.value = fb.value))
    ∧ (∀ fsA fsB fs1 : List Field, updateLoop fsA fsB = some fs1 →
        ∀ i fa fb f1, fsA.get? i = some fa → fsB.get? i = some fb →
          fs1.get? i = some f1 →
          (ignored fa = true → f1 = fa)
          ∧ (ignored fa = false →
              f1.value = fb.value ∧ f1.isPk = fa.isPk ∧ f1.incremented = fa.incremented
              ∧ f1.eqTag = fa.eqTag)) := by
  refine ⟨ignored_eq_true_iff, equalsLoop_eq_some_true_iff, ?_⟩
  intro fsA fsB fs1 h i fa fb f1 ha hb h1
  have hget := updateLoop_get fsA fsB fs1 h i fa fb ha hb
  rw [h1] at hget
  have hf : f1 = (if ignored fa then fa else { fa with value := fb.value }) :=
    Option.some_inj.mp hget
  constructor
  · intro hig
    rw [hf, if_pos hig]
  · intro hig
    rw [hf, if_neg (by simp [hig])]
    simp

/-- Witness for C4: the equality characterization applied at a concrete
pair of field lists that differ only on ignored positions. -/
theorem c4_field_exclusion_rule_witness :
    equalsLoop [⟨1, true, false, none⟩, ⟨5, false, true, none⟩, ⟨3, false, false, some "-"⟩]
        [⟨2, true, false, none⟩, ⟨6, false, true, none⟩, ⟨4, false, false, some "-"⟩]
      = some true ↔
      ∀ i fa fb,
        [⟨1, true, false, none⟩, ⟨5, false, true, none⟩,
          (⟨3, false, false, some "-"⟩ : Field)].get? i = some fa →
        [⟨2, true, false, none⟩, ⟨6, false, true, none⟩,
          (⟨4, false, false, some "-"⟩ : Field)].get? i = some fb →
        ignored fa = false → fa.value = fb.value :=
  c4_field_exclusion_rule.2.1 _ _ (by decide)

/-- C5 counterexample: the claim says Equals returns true only when the two
field lists have equal length and otherwise fails rather than truncating
or indexing out of range.  The code returns true for an empty first list
against a non-empty second one (silent truncation), and indexes out of
range (modelled by `none`) when the first list is longer. -/
theorem c5_counterexample :
    defaultEquals ⟨"k", [], none⟩ ⟨"k", [⟨7, false, false, none⟩], none⟩ = some true
    ∧ (⟨"k", [], none⟩ : Model).fields.length
        ≠ (⟨"k", [⟨7, false, false, none⟩], none⟩ : Model).fields.length
    ∧ defaultEquals ⟨"k", [⟨7, false, false, none⟩], none⟩ ⟨"k", [], none⟩ = none := by
  decide

/-- C5 amended: Equals compares positionally over the first record's field
count.  When the first list is not longer than the second, it returns a
boolean that is false exactly when some same-index non-ignored pair
differs (so true even when the second list is strictly longer: silent
truncation).  When the first list is longer, it either hits a mismatch
first and returns false, or indexes out of range (the Go panic, modelled
by `none`); it never returns true in that case. -/
theorem c5_amended :
    (∀ fsA fsB : List Field, fsA.length ≤ fsB.length →
      ∃ b, equalsLoop fsA fsB = some b
        ∧ (b = false ↔ ∃ i fa fb, fsA.get? i = some fa ∧ fsB.get? i = some fb
            ∧ ignored fa = false ∧ fa.value ≠ fb.value))
    ∧ (∀ fsA fsB : List Field, fsB.length < fsA.length →
        equalsLoop fsA fsB = none ∨ equalsLoop fsA fsB = some false) := by
  constructor
  · intro fsA fsB h
    obtain ⟨b, hb⟩ := equalsLoop_isSome_of_le fsA fsB h
    refine ⟨b, hb, ?_⟩
    have hiff := equalsLoop_eq_some_true_iff fsA fsB h
    rw [hb] at hiff
    cases b with
    | true =>
      constructor
      · intro hfalse
        simp at hfalse
      · rintro ⟨i, fa, fb, ha, hb2, hig, hne⟩
        exact (hne (hiff.mp rfl i fa fb ha hb2 hig)).elim
    | false =>
      constructor
      · intro _
        have hnot : ¬ ∀ i fa fb, fsA.get? i = some fa → fsB.get? i = some fb →
            ignored fa = false → fa.value = fb.value := by
          intro hall
          have := hiff.mpr hall
          simp at this
        push_neg at hnot
        exact hnot
      · intro _
        rfl
  · intro fsA
    induction fsA with
    | nil => intro fsB h; simp at h
    | cons fA restA ih =>
      intro fsB h
      cases fsB with
      | nil => left; rfl
      | cons fB restB =>
        have h2 : restB.length < restA.length := by simpa using h
        by_cases hig : ignored fA = true
        · simpa [equalsLoop, hig] using ih restB h2
        · by_cases hv : fA.value = fB.value
          · simpa [equalsLoop, hig, hv] using ih restB h2
          · right
            simp [equalsLoop, hig, hv]

/-- Witness for C5 (amended part) at a concrete pair with a non-ignored
mismatch. -/
theorem c5_amended_witness :
    ∃ b, equalsLoop [⟨1, false, false, none⟩] [⟨2, false, false, none⟩, ⟨3, true, false, none⟩]
        = some b
      ∧ (b = false ↔ ∃ i fa fb,
          [(⟨1, false, false, none⟩ : Field)].get? i = some fa
          ∧ [⟨2, false, false, none⟩, (⟨3, true, false, none⟩ : Field)].get? i = some fb
          ∧ ignored fa = false ∧ fa.value ≠ fb.value) :=
  c5_amended.1 _ _ (by decide)

/-- C10: the Default Strategy discards the introspection error in both
Equals and Update: the results depend only on the reported field lists
(never on the error component), and when the first record's field list
comes back empty, Equals returns true and Update returns the stored model
unchanged, with no error surfaced. -/
theorem c10_introspection_errors (mA mB : Model) (h : mA.fields = []) :
    defaultEquals mA mB = some true
    ∧ defaultUpdate mA mB = some mA
    ∧ (∀ mX mY : Model, ∀ e1 e2 : Option String,
        defaultEquals { mX with fieldsErr := e1 } { mY with fieldsErr := e2 }
          = defaultEquals mX mY
        ∧ defaultUpdate { mX with fieldsErr := e1 } { mY with fieldsErr := e2 }
          = (defaultUpdate mX mY).map (fun m => { m with fieldsErr := e1 })) := by
  refine ⟨?_, ?_, ?_⟩
  · simp [defaultEquals, h, equalsLoop]
  · rcases mA with ⟨pkA, fsA, errA⟩
    simp only at h
    subst h
    simp [defaultUpdate, updateLoop]
  · intro mX mY e1 e2
    refine ⟨rfl, ?_⟩
    rcases mX with ⟨pk1, fs1, er1⟩
    cases hu : updateLoop fs1 mY.fields with
    | none => simp [defaultUpdate, hu]
    | some fs2 => simp [defaultUpdate, hu]

/-- Witness for C10 at a concrete pair whose first record reports an empty
field list together with an introspection error. -/
theorem c10_introspection_errors_witness :
    defaultEquals ⟨"a", [], some "broken"⟩ ⟨"a", [⟨3, false, false, none⟩], none⟩ = some true
    ∧ defaultUpdate ⟨"a", [], some "broken"⟩ ⟨"a", [⟨3, false, false, none⟩], none⟩
        = some ⟨"a", [], some "broken"⟩ :=
  ⟨(c10_introspection_errors ⟨"a", [], some "broken"⟩ ⟨"a", [⟨3, false, false, none⟩], none⟩ rfl).1,
    (c10_introspection_errors ⟨"a", [], some "broken"⟩ ⟨"a", [⟨3, false, false, none⟩], none⟩ rfl).2.1⟩

/-- C3: for a stored/desired pair of records of the same type (positionally
equal field metadata), the Default Strategy's Update succeeds and returns a
model with the stored primary key and field count in which every ignored
field keeps its pre-merge value and every non-ignored field equals the
same-index desired field. -/
theorem c3_merge_fidelity (mA mB : Model) (h : sameSchema mA.fields mB.fields = true) :
    ∃ m1, defaultUpdate mA mB = some m1
      ∧ m1.pk = mA.pk
      ∧ m1.fields.length = mA.fields.length
      ∧ ∀ i fa fb f1, mA.fields.get? i = some fa → mB.fields.get? i = some fb →
          m1.fields.get? i = some f1 →
          (ignored fa = true → f1 = fa) ∧ (ignored fa = false → f1 = fb) := by
  have hlen := sameSchema_length _ _ h
  obtain ⟨fs1, hfs⟩ := updateLoop_isSome_of_le mA.fields mB.fields (le_of_eq hlen)
  refine ⟨{ mA with fields := fs1 }, defaultUpdate_eq mA mB fs1 hfs, rfl,
    updateLoop_length _ _ _ hfs, ?_⟩
  intro i fa fb f1 ha hb h1
  have h1b : fs1.get? i = some f1 := h1
  have hget := updateLoop_get _ _ _ hfs i fa fb ha hb
  rw [h1b] at hget
  have hf : f1 = (if ignored fa then fa else { fa with value := fb.value }) :=
    Option.some_inj.mp hget
  constructor
  · intro hig
    rw [hf, if_pos hig]
  · intro hig
    rw [hf, if_neg (by simp [hig])]
    exact setValue_eq (sameSchema_get _ _ h i fa fb ha hb)

/-- Witness for C3 at a concrete same-schema pair with a primary key, an
auto-incremented field, an excluded field and an ordinary field. -/
theorem c3_merge_fidelity_witness :
    sameSchema (⟨"k", [⟨1, true, false, none⟩, ⟨2, false, true, none⟩,
        ⟨3, false, false, some "-"⟩, ⟨4, false, false, none⟩], none⟩ : Model).fields
      (⟨"k", [⟨9, true, false, none⟩, ⟨8, false, true, none⟩,
        ⟨7, false, false, some "-"⟩, ⟨6, false, false, none⟩], none⟩ : Model).fields = true
    ∧ ∃ m1, defaultUpdate
        ⟨"k", [⟨1, true, false, none⟩, ⟨2, false, true, none⟩,
          ⟨3, false, false, some "-"⟩, ⟨4, false, false, none⟩], none⟩
        ⟨"k", [⟨9, true, false, none⟩, ⟨8, false, true, none⟩,
          ⟨7, false, false, some "-"⟩, ⟨6, false, false, none⟩], none⟩ = some m1
      ∧ m1.pk = "k"
      ∧ m1.fields.length = 4
      ∧ ∀ i fa fb f1,
          (⟨"k", [⟨1, true, false, none⟩, ⟨2, false, true, none⟩,
            ⟨3, false, false, some "-"⟩, ⟨4, false, false, none⟩], none⟩ : Model).fields.get? i
            = some fa →
          (⟨"k", [⟨9, true, false, none⟩, ⟨8, false, true, none⟩,
            ⟨7, false, false, some "-"⟩, ⟨6, false, false, none⟩], none⟩ : Model).fields.get? i
            = some fb →
          m1.fields.get? i = some f1 →
          (ignored fa = true → f1 = fa) ∧ (ignored fa = false → f1 = fb) :=
  ⟨by decide, c3_merge_fidelity _ _ (by decide)⟩

/-- The last model with the given primary key yielded by a sequence. -/
def lastWithPk : List Model → String → Option Model
  | [], _ => none
  | m :: rest, k =>
    match lastWithPk rest k with
    | some m1 => some m1
    | none => if m.pk = k then some m else none

/-- The stored component paired under a key, if any. -/
def storedOf (mp : Dispositions) (k : String) : Option Model :=
  (lookupDpn mp k).bind Disposition.stored

theorem lookupDpn_setDpn (mp : Dispositions) (k : String) (d : Disposition) :
    ∀ k1, lookupDpn (setDpn mp k d) k1 = if k = k1 then some d else lookupDpn mp k1 := by
  induction mp with
  | nil =>
    intro k1
    by_cases h : k = k1 <;> simp [setDpn, lookupDpn, h]
  | cons p rest ih =>
    obtain ⟨k0, d0⟩ := p
    intro k1
    by_cases h0 : k0 = k
    · subst h0
      by_cases h1 : k0 = k1 <;> simp [setDpn, lookupDpn, h1]
    · by_cases h1 : k0 = k1
      · subst h1
        have hk : ¬ k = k0 := fun he => h0 he.symm
        simp [setDpn, lookupDpn, h0, hk]
      · simp [setDpn, lookupDpn, h0, h1, ih k1]

theorem storedPass_lookup :
    ∀ (s : List Model) (mp : Dispositions) (k : String),
      lookupDpn (storedPass mp s) k =
        match lastWithPk s k with
        | some m => some ⟨some m, none⟩
        | none => lookupDpn mp k
  | [], mp, k => by simp [storedPass, lastWithPk]
  | m :: rest, mp, k => by
    rw [show storedPass mp (m :: rest)
        = storedPass (setDpn mp m.pk ⟨some m, none⟩) rest from rfl]
    rw [storedPass_lookup rest _ k]
    cases hl : lastWithPk rest k with
    | some m1 => simp [lastWithPk, hl]
    | none =>
      rw [lookupDpn_setDpn]
      by_cases h : m.pk = k <;> simp [lastWithPk, hl, h]

theorem desiredPass_step (mp : Dispositions) (m : Model) (rest : List Model) :
    desiredPass mp (m :: rest)
      = desiredPass (setDpn mp m.pk ⟨storedOf mp m.pk, some m⟩) rest := by
  cases h : lookupDpn mp m.pk with
  | none => simp [desiredPass, h, storedOf]
  | some dpn => simp [desiredPass, h, storedOf]

theorem desiredPass_lookup :
    ∀ (d : List Model) (mp : Dispositions) (k : String),
      lookupDpn (desiredPass mp d) k =
        match lastWithPk d k with
        | some m => some ⟨storedOf mp k, some m⟩
        | none => lookupDpn mp k
  | [], mp, k => by simp [desiredPass, lastWithPk]
  | m :: rest, mp, k => by
    rw [desiredPass_step]
    rw [desiredPass_lookup rest _ k]
    have hset : storedOf (setDpn mp m.pk ⟨storedOf mp m.pk, some m⟩) k = storedOf mp k := by
      unfold storedOf
      rw [lookupDpn_setDpn]
      by_cases h : m.pk = k
      · subst h; simp
      · simp [h]
    cases hl : lastWithPk rest k with
    | some m1 => simp [lastWithPk, hl, hset]
    | none =>
      rw [lookupDpn_setDpn]
      by_cases h : m.pk = k
      · subst h
        simp [lastWithPk, hl]
      · simp [lastWithPk, hl, h]

theorem dispositions_lookup (s d : List Model) (k : String) :
    lookupDpn (dispositions s d) k =
      match lastWithPk d k, lastWithPk s k with
      | some md, ms => some ⟨ms, some md⟩
      | none, some m => some ⟨some m, none⟩
      | none, none => none := by
  unfold dispositions
  rw [desiredPass_lookup]
  have hst : storedOf (storedPass [] s) k = lastWithPk s k := by
    unfold storedOf
    rw [storedPass_lookup]
    cases lastWithPk s k <;> simp [lookupDpn]
  cases hd : lastWithPk d k with
  | some md =>
    simp only [hst]
  | none =>
    rw [storedPass_lookup]
    cases hs : lastWithPk s k <;> rfl

theorem lastWithPk_eq_none_iff :
    ∀ (l : List Model) (k : String), lastWithPk l k = none ↔ ∀ m ∈ l, m.pk ≠ k
  | [], k => by simp [lastWithPk]
  | m :: rest, k => by
    simp only [lastWithPk]
    cases hl : lastWithPk rest k with
    | some m1 =>
      have hrest : ¬ ∀ m2 ∈ rest, m2.pk ≠ k := by
        rw [← lastWithPk_eq_none_iff rest k]
        simp [hl]
      constructor
      · intro h; simp at h
      · intro hall
        exact (hrest (fun m2 hm2 => hall m2 (List.mem_cons_of_mem m hm2))).elim
    | none =>
      have hrest := (lastWithPk_eq_none_iff rest k).mp hl
      by_cases h : m.pk = k
      · rw [if_pos h]
        constructor
        · intro hc; simp at hc
        · intro hall
          exact (hall m (List.mem_cons_self m rest) h).elim
      · rw [if_neg h]
        constructor
        · intro _ m2 hm2
          rcases List.mem_cons.mp hm2 with rfl | hm2r
          · exact h
          · exact hrest m2 hm2r
        · intro _; rfl

theorem lastWithPk_isSome_iff (l : List Model) (k : String) :
    (lastWithPk l k).isSome = true ↔ ∃ m ∈ l, m.pk = k := by
  constructor
  · intro h
    by_contra hc
    push_neg at hc
    rw [← lastWithPk_eq_none_iff] at hc
    simp [hc] at h
  · rintro ⟨m, hm, hpk⟩
    cases ho : lastWithPk l k with
    | some m1 => simp
    | none => exact absurd hpk ((lastWithPk_eq_none_iff l k).mp ho m hm)

theorem lastWithPk_mem :
    ∀ (l : List Model) (k : String) (m : Model), lastWithPk l k = some m → m ∈ l ∧ m.pk = k
  | [], k, m, h => by simp [lastWithPk] at h
  | m0 :: rest, k, m, h => by
    simp only [lastWithPk] at h
    cases hl : lastWithPk rest k with
    | some m1 =>
      rw [hl] at h
      injection h with h2
      subst h2
      have hm := lastWithPk_mem rest k _ hl
      exact ⟨List.mem_cons_of_mem m0 hm.1, hm.2⟩
    | none =>
      rw [hl] at h
      by_cases hp : m0.pk = k
      · rw [if_pos hp] at h
        injection h with h2
        subst h2
        exact ⟨List.mem_cons_self _ _, hp⟩
      · rw [if_neg hp] at h
        simp at h

theorem lastWithPk_append :
    ∀ (l1 l2 : List Model) (k : String),
      lastWithPk (l1 ++ l2) k =
        match lastWithPk l2 k with
        | some m => some m
        | none => lastWithPk l1 k
  | [], l2, k => by cases h : lastWithPk l2 k <;> simp [lastWithPk, h]
  | m :: rest, l2, k => by
    simp only [List.cons_append, lastWithPk, List.append_eq]
    rw [lastWithPk_append rest l2 k]
    cases h2 : lastWithPk l2 k with
    | some m2 => rfl
    | none => rfl

theorem lastWithPk_sandwich (l1 l2 : List Model) (m : Model) (k : String)
    (hm : m.pk = k) (hl2 : ∀ m2 ∈ l2, m2.pk ≠ k) :
    lastWithPk (l1 ++ m :: l2) k = some m := by
  rw [lastWithPk_append]
  have h2 : lastWithPk l2 k = none := (lastWithPk_eq_none_iff l2 k).mpr hl2
  simp [lastWithPk, h2, hm]

/-- C2: after disposition building, a key has an entry iff it appears in
the stored or the desired sequence; no entry has both components absent;
and an entry is an add-entry (stored absent, desired present) iff the key
is desired-only, an update candidate (both present) iff the key is in
both, and a delete-entry (stored present, desired absent) iff the key is
stored-only — so the three classes are pairwise disjoint and cover
exactly the union of the two key sets. -/
theorem c2_partition (s d : List Model) (k : String) :
    ((lookupDpn (dispositions s d) k).isSome = true
      ↔ ((∃ m ∈ s, m.pk = k) ∨ ∃ m ∈ d, m.pk = k))
    ∧ ∀ dpn, lookupDpn (dispositions s d) k = some dpn →
        ¬(dpn.stored = none ∧ dpn.desired = none)
        ∧ ((dpn.stored = none ∧ dpn.desired ≠ none)
            ↔ (¬(∃ m ∈ s, m.pk = k) ∧ ∃ m ∈ d, m.pk = k))
        ∧ ((dpn.stored ≠ none ∧ dpn.desired ≠ none)
            ↔ ((∃ m ∈ s, m.pk = k) ∧ ∃ m ∈ d, m.pk = k))
        ∧ ((dpn.stored ≠ none ∧ dpn.desired = none)
            ↔ ((∃ m ∈ s, m.pk = k) ∧ ¬∃ m ∈ d, m.pk = k)) := by
  have hchar := dispositions_lookup s d k
  cases hld : lastWithPk d k with
  | some md =>
    rw [hld] at hchar
    have hdex : ∃ m ∈ d, m.pk = k := (lastWithPk_isSome_iff d k).mp (by simp [hld])
    cases hls : lastWithPk s k with
    | some ms =>
      rw [hls] at hchar
      have hsex : ∃ m ∈ s, m.pk = k := (lastWithPk_isSome_iff s k).mp (by simp [hls])
      have h2 : lookupDpn (dispositions s d) k = some ⟨some ms, some md⟩ := hchar
      constructor
      · simp only [h2, Option.isSome_some, true_iff]
        exact Or.inl hsex
      · intro dpn hdpn
        rw [h2] at hdpn
        injection hdpn with h3
        subst h3
        simp [hsex, hdex]
    | none =>
      rw [hls] at hchar
      have hsnone : ¬∃ m ∈ s, m.pk = k := by
        rw [← lastWithPk_isSome_iff]
        simp [hls]
      have h2 : lookupDpn (dispositions s d) k = some ⟨none, some md⟩ := hchar
      constructor
      · simp only [h2, Option.isSome_some, true_iff]
        exact Or.inr hdex
      · intro dpn hdpn
        rw [h2] at hdpn
        injection hdpn with h3
        subst h3
        simp [hsnone, hdex]
  | none =>
    rw [hld] at hchar
    have hdnone : ¬∃ m ∈ d, m.pk = k := by
      rw [← lastWithPk_isSome_iff]
      simp [hld]
    cases hls : lastWithPk s k with
    | some ms =>
      rw [hls] at hchar
      have hsex : ∃ m ∈ s, m.pk = k := (lastWithPk_isSome_iff s k).mp (by simp [hls])
      have h2 : lookupDpn (dispositions s d) k = some ⟨some ms, none⟩ := hchar
      constructor
      · simp only [h2, Option.isSome_some, true_iff]
        exact Or.inl hsex
      · intro dpn hdpn
        rw [h2] at hdpn
        injection hdpn with h3
        subst h3
        simp [hsex, hdnone]
    | none =>
      rw [hls] at hchar
      have hsnone : ¬∃ m ∈ s, m.pk = k := by
        rw [← lastWithPk_isSome_iff]
        simp [hls]
      have h2 : lookupDpn (dispositions s d) k = none := hchar
      constructor
      · simp only [h2]
        constructor
        · intro h; simp at h
        · rintro (h | h)
          · exact (hsnone h).elim
          · exact (hdnone h).elim
      · intro dpn hdpn
        rw [h2] at hdpn
        simp at hdpn

/-- Witness for C2 at a one-element stored and desired sequence sharing a
key. -/
theorem c2_partition_witness :
    ¬((⟨some ⟨"k", [], none⟩, some ⟨"k", [], none⟩⟩ : Disposition).stored = none
        ∧ (⟨some ⟨"k", [], none⟩, some ⟨"k", [], none⟩⟩ : Disposition).desired = none)
    ∧ (((⟨some ⟨"k", [], none⟩, some ⟨"k", [], none⟩⟩ : Disposition).stored = none
        ∧ (⟨some ⟨"k", [], none⟩, some ⟨"k", [], none⟩⟩ : Disposition).desired ≠ none)
        ↔ (¬(∃ m ∈ [(⟨"k", [], none⟩ : Model)], m.pk = "k")
            ∧ ∃ m ∈ [(⟨"k", [], none⟩ : Model)], m.pk = "k"))
    ∧ (((⟨some ⟨"k", [], none⟩, some ⟨"k", [], none⟩⟩ : Disposition).stored ≠ none
        ∧ (⟨some ⟨"k", [], none⟩, some ⟨"k", [], none⟩⟩ : Disposition).desired ≠ none)
        ↔ ((∃ m ∈ [(⟨"k", [], none⟩ : Model)], m.pk = "k")
            ∧ ∃ m ∈ [(⟨"k", [], none⟩ : Model)], m.pk = "k"))
    ∧ (((⟨some ⟨"k", [], none⟩, some ⟨"k", [], none⟩⟩ : Disposition).stored ≠ none
        ∧ (⟨some ⟨"k", [], none⟩, some ⟨"k", [], none⟩⟩ : Disposition).desired = none)
        ↔ ((∃ m ∈ [(⟨"k", [], none⟩ : Model)], m.pk = "k")
            ∧ ¬∃ m ∈ [(⟨"k", [], none⟩ : Model)], m.pk = "k")) :=
  (c2_partition [⟨"k", [], none⟩] [⟨"k", [], none⟩] "k").2
    ⟨some ⟨"k", [], none⟩, some ⟨"k", [], none⟩⟩ (by decide)

/-- C7: if a sequence yields two records with the same primary key, the
disposition entry for that key reflects only the later one, silently: for
the desired sequence the entry keeps whatever stored record is already
paired under the key and carries the later desired record; for the stored
sequence the entry's stored component is the later record. -/
theorem c7_last_write_wins (k : String) :
    (∀ (s d1 d2 d3 : List Model) (m1 m2 : Model), m1.pk = k → m2.pk = k →
        (∀ m ∈ d3, m.pk ≠ k) →
        lookupDpn (dispositions s ((d1 ++ m1 :: d2) ++ m2 :: d3)) k
          = some ⟨lastWithPk s k, some m2⟩)
    ∧ (∀ (s1 s2 s3 d : List Model) (n1 n2 : Model), n1.pk = k → n2.pk = k →
        (∀ m ∈ s3, m.pk ≠ k) →
        ∃ dpn, lookupDpn (dispositions ((s1 ++ n1 :: s2) ++ n2 :: s3) d) k = some dpn
          ∧ dpn.stored = some n2) := by
  constructor
  · intro s d1 d2 d3 m1 m2 hm1 hm2 hd3
    have hsand := lastWithPk_sandwich (d1 ++ m1 :: d2) d3 m2 k hm2 hd3
    rw [dispositions_lookup, hsand]
  · intro s1 s2 s3 d n1 n2 hn1 hn2 hs3
    have hsand := lastWithPk_sandwich (s1 ++ n1 :: s2) s3 n2 k hn2 hs3
    cases hd : lastWithPk d k with
    | some md =>
      exact ⟨⟨some n2, some md⟩, by rw [dispositions_lookup, hsand, hd], rfl⟩
    | none =>
      exact ⟨⟨some n2, none⟩, by rw [dispositions_lookup, hsand, hd], rfl⟩

/-- Witness for C7: a desired sequence that yields key "k" twice; the
entry holds the second desired record and the stored one. -/
theorem c7_last_write_wins_witness :
    lookupDpn (dispositions [⟨"k", [], none⟩]
        (([] ++ ⟨"k", [⟨1, false, false, none⟩], none⟩ :: [])
          ++ ⟨"k", [⟨2, false, false, none⟩], none⟩ :: [])) "k"
      = some ⟨lastWithPk [⟨"k", [], none⟩] "k", some ⟨"k", [⟨2, false, false, none⟩], none⟩⟩ :=
  (c7_last_write_wins "k").1 [⟨"k", [], none⟩] [] [] [] _ _ rfl rfl (by simp)

/-- Transaction operations, recorded to observe call order. -/
inductive Op where
  | ins (m : Model)
  | upd (m : Model)
  | del (m : Model)
  deriving DecidableEq

def Op.isIns : Op → Bool
  | .ins _ => true
  | _ => false

def Op.isUpd : Op → Bool
  | .upd _ => true
  | _ => false

def Op.isDel : Op → Bool
  | .del _ => true
  | _ => false

/-- Modelled from the spec: a transaction that applies each call
immediately (here: appends it to a log) and reports success or failure
synchronously, per the given failure oracle. -/
def logTx (fail : Op → Option ε) : Tx (List Op) ε :=
  { insert := fun l m => (l ++ [Op.ins m], fail (Op.ins m)),
    update := fun l m => (l ++ [Op.upd m], fail (Op.upd m)),
    delete := fun l m => (l ++ [Op.del m], fail (Op.del m)) }

theorem deletePhase_cons_skip {σ ε} (tx : Tx σ ε) (st : CState σ) (k : String)
    (dpn : Disposition) (rest : Dispositions)
    (h : dpn.stored = none ∨ dpn.desired ≠ none) :
    deletePhase tx st ((k, dpn) :: rest) = deletePhase tx st rest := by
  rcases dpn with ⟨os, od⟩
  rcases h with h | h
  · have h2 : os = none := h
    subst h2
    cases od <;> rfl
  · cases hod : od with
    | none => exact absurd hod h
    | some d =>
      subst hod
      cases os <;> rfl

theorem deletePhase_cons_del {σ ε} (tx : Tx σ ε) (st : CState σ) (k : String)
    (dpn : Disposition) (rest : Dispositions) (s : Model)
    (hs : dpn.stored = some s) (hd : dpn.desired = none) :
    deletePhase tx st ((k, dpn) :: rest) =
      match tx.delete st.db s with
      | (db1, none) => deletePhase tx { st with db := db1, deleted := st.deleted + 1 } rest
      | (db1, some e) => ({ st with db := db1 }, some e) := by
  rcases dpn with ⟨os, od⟩
  have hs2 : os = some s := hs
  have hd2 : od = none := hd
  subst hs2
  subst hd2
  rfl

theorem addPhase_cons_skip {σ ε} (tx : Tx σ ε) (st : CState σ) (k : String)
    (dpn : Disposition) (rest : Dispositions)
    (h : dpn.desired = none ∨ dpn.stored ≠ none) :
    addPhase tx st ((k, dpn) :: rest) = addPhase tx st rest := by
  rcases dpn with ⟨os, od⟩
  rcases h with h | h
  · have h2 : od = none := h
    subst h2
    cases os <;> rfl
  · cases hos : os with
    | none => exact absurd hos h
    | some s =>
      subst hos
      cases od <;> rfl

theorem addPhase_cons_ins {σ ε} (tx : Tx σ ε) (st : CState σ) (k : String)
    (dpn : Disposition) (rest : Dispositions) (d : Model)
    (hd : dpn.desired = some d) (hs : dpn.stored = none) :
    addPhase tx st ((k, dpn) :: rest) =
      match tx.insert st.db d with
      | (db1, none) => addPhase tx { st with db := db1, added := st.added + 1 } rest
      | (db1, some e) => ({ st with db := db1 }, some e) := by
  rcases dpn with ⟨os, od⟩
  have hd2 : od = some d := hd
  have hs2 : os = none := hs
  subst hd2
  subst hs2
  rfl

theorem updatePhaseGo_cons_skip {σ ε} (tx : Tx σ ε) (sh : Shepherd) (st : CState σ)
    (k : String) (dpn : Disposition) (rest : Dispositions)
    (h : dpn.desired = none ∨ dpn.stored = none) :
    updatePhaseGo tx sh st ((k, dpn) :: rest) = updatePhaseGo tx sh st rest := by
  rcases dpn with ⟨os, od⟩
  rcases h with h | h
  · have h2 : od = none := h
    subst h2
    cases os <;> rfl
  · have h2 : os = none := h
    subst h2
    cases od <;> rfl

theorem updatePhaseGo_cons_eq {σ ε} (tx : Tx σ ε) (sh : Shepherd) (st : CState σ)
    (k : String) (dpn : Disposition) (rest : Dispositions) (d s : Model)
    (hd : dpn.desired = some d) (hs : dpn.stored = some s)
    (heq : sh.equals d s = true) :
    updatePhaseGo tx sh st ((k, dpn) :: rest) = updatePhaseGo tx sh st rest := by
  rcases dpn with ⟨os, od⟩
  have hd2 : od = some d := hd
  have hs2 : os = some s := hs
  subst hd2
  subst hs2
  show (if sh.equals d s then updatePhaseGo tx sh st rest
    else
      match tx.update st.db (sh.update s d) with
      | (db1, none) => updatePhaseGo tx sh { st with db := db1, updated := st.updated + 1 } rest
      | (db1, some e) => ({ st with db := db1 }, some e)) = updatePhaseGo tx sh st rest
  rw [if_pos heq]

theorem updatePhaseGo_cons_upd {σ ε} (tx : Tx σ ε) (sh : Shepherd) (st : CState σ)
    (k : String) (dpn : Disposition) (rest : Dispositions) (d s : Model)
    (hd : dpn.desired = some d) (hs : dpn.stored = some s)
    (heq : sh.equals d s = false) :
    updatePhaseGo tx sh st ((k, dpn) :: rest) =
      match tx.update st.db (sh.update s d) with
      | (db1, none) => updatePhaseGo tx sh { st with db := db1, updated := st.updated + 1 } rest
      | (db1, some e) => ({ st with db := db1 }, some e) := by
  rcases dpn with ⟨os, od⟩
  have hd2 : od = some d := hd
  have hs2 : os = some s := hs
  subst hd2
  subst hs2
  show (if sh.equals d s then updatePhaseGo tx sh st rest
    else
      match tx.update st.db (sh.update s d) with
      | (db1, none) => updatePhaseGo tx sh { st with db := db1, updated := st.updated + 1 } rest
      | (db1, some e) => ({ st with db := db1 }, some e)) = _
  rw [if_neg (by simp [heq])]

theorem deletePhase_trace {ε} (fail : Op → Option ε) :
    ∀ (mp : Dispositions) (st : CState (List Op)),
      ∃ t, (deletePhase (logTx fail) st mp).1.db = st.db ++ t
        ∧ ∀ op ∈ t, op.isDel = true := by
  intro mp
  induction mp with
  | nil => intro st; exact ⟨[], by simp [deletePhase]⟩
  | cons p rest ih =>
    obtain ⟨k, dpn⟩ := p
    intro st
    cases hs : dpn.stored with
    | none =>
      rw [deletePhase_cons_skip _ _ _ _ _ (Or.inl hs)]
      exact ih st
    | some s =>
      cases hd : dpn.desired with
      | some d =>
        rw [deletePhase_cons_skip _ _ _ _ _ (Or.inr (by simp [hd]))]
        exact ih st
      | none =>
        rw [deletePhase_cons_del _ _ _ _ _ _ hs hd]
        have hstep : (logTx fail).delete st.db s
            = (st.db ++ [Op.del s], fail (Op.del s)) := rfl
        rw [hstep]
        cases hf : fail (Op.del s) with
        | none =>
          obtain ⟨t, ht, hall⟩ :=
            ih { st with db := st.db ++ [Op.del s], deleted := st.deleted + 1 }
          refine ⟨Op.del s :: t, ?_, ?_⟩
          · show (deletePhase (logTx fail)
                { st with db := st.db ++ [Op.del s], deleted := st.deleted + 1 } rest).1.db
              = st.db ++ (Op.del s :: t)
            rw [ht]
            simp
          · intro op hop
            rcases List.mem_cons.mp hop with rfl | hop2
            · rfl
            · exact hall op hop2
        | some e =>
          refine ⟨[Op.del s], rfl, ?_⟩
          intro op hop
          rcases List.mem_cons.mp hop with rfl | h2
          · rfl
          · simp at h2

theorem addPhase_trace {ε} (fail : Op → Option ε) :
    ∀ (mp : Dispositions) (st : CState (List Op)),
      ∃ t, (addPhase (logTx fail) st mp).1.db = st.db ++ t
        ∧ ∀ op ∈ t, op.isIns = true := by
  intro mp
  induction mp with
  | nil => intro st; exact ⟨[], by simp [addPhase]⟩
  | cons p rest ih =>
    obtain ⟨k, dpn⟩ := p
    intro st
    cases hd : dpn.desired with
    | none =>
      rw [addPhase_cons_skip _ _ _ _ _ (Or.inl hd)]
      exact ih st
    | some d =>
      cases hs : dpn.stored with
      | some s =>
        rw [addPhase_cons_skip _ _ _ _ _ (Or.inr (by simp [hs]))]
        exact ih st
      | none =>
        rw [addPhase_cons_ins _ _ _ _ _ _ hd hs]
        have hstep : (logTx fail).insert st.db d
            = (st.db ++ [Op.ins d], fail (Op.ins d)) := rfl
        rw [hstep]
        cases hf : fail (Op.ins d) with
        | none =>
          obtain ⟨t, ht, hall⟩ :=
            ih { st with db := st.db ++ [Op.ins d], added := st.added + 1 }
          refine ⟨Op.ins d :: t, ?_, ?_⟩
          · show (addPhase (logTx fail)
                { st with db := st.db ++ [Op.ins d], added := st.added + 1 } rest).1.db
              = st.db ++ (Op.ins d :: t)
            rw [ht]
            simp
          · intro op hop
            rcases List.mem_cons.mp hop with rfl | hop2
            · rfl
            · exact hall op hop2
        | some e =>
          refine ⟨[Op.ins d], rfl, ?_⟩
          intro op hop
          rcases List.mem_cons.mp hop with rfl | h2
          · rfl
          · simp at h2

theorem updatePhaseGo_trace {ε} (fail : Op → Option ε) (sh : Shepherd) :
    ∀ (mp : Dispositions) (st : CState (List Op)),
      ∃ t, (updatePhaseGo (logTx fail) sh st mp).1.db = st.db ++ t
        ∧ ∀ op ∈ t, op.isUpd = true := by
  intro mp
  induction mp with
  | nil => intro st; exact ⟨[], by simp [updatePhaseGo]⟩
  | cons p rest ih =>
    obtain ⟨k, dpn⟩ := p
    intro st
    cases hd : dpn.desired with
    | none =>
      rw [updatePhaseGo_cons_skip _ _ _ _ _ _ (Or.inl hd)]
      exact ih st
    | some d =>
      cases hs : dpn.stored with
      | none =>
        rw [updatePhaseGo_cons_skip _ _ _ _ _ _ (Or.inr hs)]
        exact ih st
      | some s =>
        by_cases heq : sh.equals d s = true
        · rw [updatePhaseGo_cons_eq _ _ _ _ _ _ _ _ hd hs heq]
          exact ih st
        · have heq2 : sh.equals d s = false := by simpa using heq
          rw [updatePhaseGo_cons_upd _ _ _ _ _ _ _ _ hd hs heq2]
          have hstep : (logTx fail).update st.db (sh.update s d)
              = (st.db ++ [Op.upd (sh.update s d)], fail (Op.upd (sh.update s d))) := rfl
          rw [hstep]
          cases hf : fail (Op.upd (sh.update s d)) with
          | none =>
            obtain ⟨t, ht, hall⟩ :=
              ih { st with db := st.db ++ [Op.upd (sh.update s d)], updated := st.updated + 1 }
            refine ⟨Op.upd (sh.update s d) :: t, ?_, ?_⟩
            · show (updatePhaseGo (logTx fail) sh
                  { st with db := st.db ++ [Op.upd (sh.update s d)], updated := st.updated + 1 }
                  rest).1.db
                = st.db ++ (Op.upd (sh.update s d) :: t)
              rw [ht]
              simp
            · intro op hop
              rcases List.mem_cons.mp hop with rfl | hop2
              · rfl
              · exact hall op hop2
          | some e =>
            refine ⟨[Op.upd (sh.update s d)], rfl, ?_⟩
            intro op hop
            rcases List.mem_cons.mp hop with rfl | h2
            · rfl
            · simp at h2
theorem reconcile_delete_err {σ ε} (tx : Tx σ ε) (shep : Option Shepherd)
    (s d : List Model) (st st1 : CState σ) (e : ε)
    (h : deletePhase tx st (dispositions s d) = (st1, some e)) :
    reconcile tx shep s d st = (st1, some e) := by
  simp only [reconcile]
  rw [h]

theorem reconcile_delete_ok {σ ε} (tx : Tx σ ε) (shep : Option Shepherd)
    (s d : List Model) (st st1 : CState σ)
    (h : deletePhase tx st (dispositions s d) = (st1, none)) :
    reconcile tx shep s d st =
      (match addPhase tx st1 (dispositions s d) with
       | (st2, some e) => (st2, some e)
       | (st2, none) => updatePhase tx shep st2 (dispositions s d)) := by
  simp only [reconcile]
  rw [h]

/-- C1: Reconcile runs the delete, add and update phases in that order
against the single disposition map built from its inputs: with a logging
transaction the final call log splits into a block of delete calls (the
delete phase's log), then insert calls, then update calls; and whenever
the delete phase returns an error, Reconcile returns that very outcome —
no add- or update-phase transaction call happens at all. -/
theorem c1_reconcile_phase_order {ε : Type} (fail : Op → Option ε) (shep : Option Shepherd)
    (s d : List Model) (a u dl : Nat) :
    (∃ t1 t2 t3,
      (reconcile (logTx fail) shep s d ⟨[], a, u, dl⟩).1.db = t1 ++ t2 ++ t3
      ∧ (∀ op ∈ t1, op.isDel = true) ∧ (∀ op ∈ t2, op.isIns = true)
      ∧ (∀ op ∈ t3, op.isUpd = true)
      ∧ t1 = (deletePhase (logTx fail) ⟨[], a, u, dl⟩ (dispositions s d)).1.db)
    ∧ ∀ st1 e, deletePhase (logTx fail) ⟨[], a, u, dl⟩ (dispositions s d) = (st1, some e) →
        reconcile (logTx fail) shep s d ⟨[], a, u, dl⟩ = (st1, some e) := by
  constructor
  · obtain ⟨t1, ht1, hall1⟩ := deletePhase_trace fail (dispositions s d) ⟨[], a, u, dl⟩
    have ht1c : (deletePhase (logTx fail) ⟨[], a, u, dl⟩ (dispositions s d)).1.db = t1 := by
      simpa using ht1
    cases hdel : deletePhase (logTx fail) ⟨[], a, u, dl⟩ (dispositions s d) with
    | mk st1 err1 =>
      rw [hdel] at ht1c
      have ht1b : st1.db = t1 := ht1c
      cases err1 with
      | some e =>
        refine ⟨t1, [], [], ?_, hall1, ?_, ?_, ?_⟩
        · rw [reconcile_delete_err _ shep s d _ _ _ hdel]
          show st1.db = t1 ++ [] ++ []
          simpa using ht1b
        · intro op hop; simp at hop
        · intro op hop; simp at hop
        · exact ht1b.symm
      | none =>
        obtain ⟨t2, ht2, hall2⟩ := addPhase_trace fail (dispositions s d) st1
        cases hadd : addPhase (logTx fail) st1 (dispositions s d) with
        | mk st2 err2 =>
          rw [hadd] at ht2
          have ht2b : st2.db = st1.db ++ t2 := ht2
          cases err2 with
          | some e2 =>
            refine ⟨t1, t2, [], ?_, hall1, hall2, ?_, ?_⟩
            · rw [reconcile_delete_ok _ shep s d _ _ hdel, hadd]
              show st2.db = t1 ++ t2 ++ []
              rw [ht2b, ht1b]
              simp
            · intro op hop; simp at hop
            · exact ht1b.symm
          | none =>
            obtain ⟨t3, ht3, hall3⟩ :=
              updatePhaseGo_trace fail (resolveShepherd shep) (dispositions s d) st2
            refine ⟨t1, t2, t3, ?_, hall1, hall2, hall3, ?_⟩
            · rw [reconcile_delete_ok _ shep s d _ _ hdel, hadd]
              show (updatePhase (logTx fail) shep st2 (dispositions s d)).1.db = t1 ++ t2 ++ t3
              unfold updatePhase
              rw [ht3, ht2b, ht1b]
            · exact ht1b.symm
  · intro st1 e h
    exact reconcile_delete_err _ shep s d _ _ _ h

/-- Witness for C1: a single stored record, an empty desired sequence and
an always-failing transaction make the delete phase fail, and Reconcile
returns exactly that failure with only the one delete call logged. -/
theorem c1_reconcile_phase_order_witness :
    reconcile (logTx (fun _ => some 7)) none [⟨"k", [], none⟩] [] ⟨[], 0, 0, 0⟩
      = (⟨[Op.del ⟨"k", [], none⟩], 0, 0, 0⟩, some 7) :=
  (c1_reconcile_phase_order (fun _ => some 7) none [⟨"k", [], none⟩] [] 0 0 0).2
    ⟨[Op.del ⟨"k", [], none⟩], 0, 0, 0⟩ 7 (by decide)

/-- A disposition to be inserted by the add phase. -/
def isAddDpn (dpn : Disposition) : Bool := dpn.desired.isSome && !dpn.stored.isSome

/-- A disposition to be removed by the delete phase. -/
def isDelDpn (dpn : Disposition) : Bool := dpn.stored.isSome && !dpn.desired.isSome

/-- A disposition the update phase persists (an update candidate the
shepherd does not report equal — note the desired-first argument order of
the Go call). -/
def isUpdDpn (sh : Shepherd) (dpn : Disposition) : Bool :=
  match dpn.desired, dpn.stored with
  | some d, some s => !(sh.equals d s)
  | _, _ => false

def countAdd (mp : Dispositions) : Nat := (mp.filter (fun p => isAddDpn p.2)).length

def countDel (mp : Dispositions) : Nat := (mp.filter (fun p => isDelDpn p.2)).length

def countUpd (sh : Shepherd) (mp : Dispositions) : Nat :=
  (mp.filter (fun p => isUpdDpn sh p.2)).length

theorem countDel_cons (k : String) (dpn : Disposition) (rest : Dispositions) :
    countDel ((k, dpn) :: rest) = (if isDelDpn dpn then 1 else 0) + countDel rest := by
  by_cases h : isDelDpn dpn = true
  · simp [countDel, List.filter_cons, h]
    omega
  · have h2 : isDelDpn dpn = false := by simpa using h
    simp [countDel, List.filter_cons, h2]

theorem countAdd_cons (k : String) (dpn : Disposition) (rest : Dispositions) :
    countAdd ((k, dpn) :: rest) = (if isAddDpn dpn then 1 else 0) + countAdd rest := by
  by_cases h : isAddDpn dpn = true
  · simp [countAdd, List.filter_cons, h]
    omega
  · have h2 : isAddDpn dpn = false := by simpa using h
    simp [countAdd, List.filter_cons, h2]

theorem countUpd_cons (sh : Shepherd) (k : String) (dpn : Disposition) (rest : Dispositions) :
    countUpd sh ((k, dpn) :: rest) = (if isUpdDpn sh dpn then 1 else 0) + countUpd sh rest := by
  by_cases h : isUpdDpn sh dpn = true
  · simp [countUpd, List.filter_cons, h]
    omega
  · have h2 : isUpdDpn sh dpn = false := by simpa using h
    simp [countUpd, List.filter_cons, h2]

theorem deletePhase_frame {σ ε} (tx : Tx σ ε) :
    ∀ (mp : Dispositions) (st : CState σ),
      (deletePhase tx st mp).1.added = st.added
      ∧ (deletePhase tx st mp).1.updated = st.updated
      ∧ st.deleted ≤ (deletePhase tx st mp).1.deleted := by
  intro mp
  induction mp with
  | nil => intro st; exact ⟨rfl, rfl, le_refl _⟩
  | cons p rest ih =>
    obtain ⟨k, dpn⟩ := p
    intro st
    cases hs : dpn.stored with
    | none =>
      rw [deletePhase_cons_skip _ _ _ _ _ (Or.inl hs)]
      exact ih st
    | some s =>
      cases hd : dpn.desired with
      | some d =>
        rw [deletePhase_cons_skip _ _ _ _ _ (Or.inr (by simp [hd]))]
        exact ih st
      | none =>
        rw [deletePhase_cons_del _ _ _ _ _ _ hs hd]
        cases htx : tx.delete st.db s with
        | mk db1 oe =>
          cases oe with
          | none =>
            obtain ⟨h1, h2, h3⟩ := ih { st with db := db1, deleted := st.deleted + 1 }
            exact ⟨h1, h2, le_trans (Nat.le_succ _) h3⟩
          | some e => exact ⟨rfl, rfl, le_refl _⟩

theorem addPhase_frame {σ ε} (tx : Tx σ ε) :
    ∀ (mp : Dispositions) (st : CState σ),
      (addPhase tx st mp).1.updated = st.updated
      ∧ (addPhase tx st mp).1.deleted = st.deleted
      ∧ st.added ≤ (addPhase tx st mp).1.added := by
  intro mp
  induction mp with
  | nil => intro st; exact ⟨rfl, rfl, le_refl _⟩
  | cons p rest ih =>
    obtain ⟨k, dpn⟩ := p
    intro st
    cases hd : dpn.desired with
    | none =>
      rw [addPhase_cons_skip _ _ _ _ _ (Or.inl hd)]
      exact ih st
    | some d =>
      cases hs : dpn.stored with
      | some s =>
        rw [addPhase_cons_skip _ _ _ _ _ (Or.inr (by simp [hs]))]
        exact ih st
      | none =>
        rw [addPhase_cons_ins _ _ _ _ _ _ hd hs]
        cases htx : tx.insert st.db d with
        | mk db1 oe =>
          cases oe with
          | none =>
            obtain ⟨h1, h2, h3⟩ := ih { st with db := db1, added := st.added + 1 }
            exact ⟨h1, h2, le_trans (Nat.le_succ _) h3⟩
          | some e => exact ⟨rfl, rfl, le_refl _⟩

theorem updatePhaseGo_frame {σ ε} (tx : Tx σ ε) (sh : Shepherd) :
    ∀ (mp : Dispositions) (st : CState σ),
      (updatePhaseGo tx sh st mp).1.added = st.added
      ∧ (updatePhaseGo tx sh st mp).1.deleted = st.deleted
      ∧ st.updated ≤ (updatePhaseGo tx sh st mp).1.updated := by
  intro mp
  induction mp with
  | nil => intro st; exact ⟨rfl, rfl, le_refl _⟩
  | cons p rest ih =>
    obtain ⟨k, dpn⟩ := p
    intro st
    cases hd : dpn.desired with
    | none =>
      rw [updatePhaseGo_cons_skip _ _ _ _ _ _ (Or.inl hd)]
      exact ih st
    | some d =>
      cases hs : dpn.stored with
      | none =>
        rw [updatePhaseGo_cons_skip _ _ _ _ _ _ (Or.inr hs)]
        exact ih st
      | some s =>
        by_cases heq : sh.equals d s = true
        · rw [updatePhaseGo_cons_eq _ _ _ _ _ _ _ _ hd hs heq]
          exact ih st
        · have heq2 : sh.equals d s = false := by simpa using heq
          rw [updatePhaseGo_cons_upd _ _ _ _ _ _ _ _ hd hs heq2]
          cases htx : tx.update st.db (sh.update s d) with
          | mk db1 oe =>
            cases oe with
            | none =>
              obtain ⟨h1, h2, h3⟩ := ih { st with db := db1, updated := st.updated + 1 }
              exact ⟨h1, h2, le_trans (Nat.le_succ _) h3⟩
            | some e => exact ⟨rfl, rfl, le_refl _⟩

theorem deletePhase_append_err {σ ε} (tx : Tx σ ε) :
    ∀ (pre rest : Dispositions) (st st1 : CState σ) (e : ε),
      deletePhase tx st pre = (st1, some e) →
      deletePhase tx st (pre ++ rest) = (st1, some e) := by
  intro pre
  induction pre with
  | nil =>
    intro rest st st1 e h
    simp [deletePhase] at h
  | cons p pre2 ih =>
    obtain ⟨k, dpn⟩ := p
    intro rest st st1 e h
    rw [List.cons_append]
    cases hs : dpn.stored with
    | none =>
      rw [deletePhase_cons_skip _ _ _ _ _ (Or.inl hs)] at h ⊢
      exact ih rest st st1 e h
    | some s =>
      cases hd : dpn.desired with
      | some d =>
        rw [deletePhase_cons_skip _ _ _ _ _ (Or.inr (by simp [hd]))] at h ⊢
        exact ih rest st st1 e h
      | none =>
        rw [deletePhase_cons_del _ _ _ _ _ _ hs hd] at h ⊢
        cases htx : tx.delete st.db s with
        | mk db1 oe =>
          rw [htx] at h
          cases oe with
          | none => exact ih rest _ st1 e h
          | some e2 => exact h

theorem addPhase_append_err {σ ε} (tx : Tx σ ε) :
    ∀ (pre rest : Dispositions) (st st1 : CState σ) (e : ε),
      addPhase tx st pre = (st1, some e) →
      addPhase tx st (pre ++ rest) = (st1, some e) := by
  intro pre
  induction pre with
  | nil =>
    intro rest st st1 e h
    simp [addPhase] at h
  | cons p pre2 ih =>
    obtain ⟨k, dpn⟩ := p
    intro rest st st1 e h
    rw [List.cons_append]
    cases hd : dpn.desired with
    | none =>
      rw [addPhase_cons_skip _ _ _ _ _ (Or.inl hd)] at h ⊢
      exact ih rest st st1 e h
    | some d =>
      cases hs : dpn.stored with
      | some s =>
        rw [addPhase_cons_skip _ _ _ _ _ (Or.inr (by simp [hs]))] at h ⊢
        exact ih rest st st1 e h
      | none =>
        rw [addPhase_cons_ins _ _ _ _ _ _ hd hs] at h ⊢
        cases htx : tx.insert st.db d with
        | mk db1 oe =>
          rw [htx] at h
          cases oe with
          | none => exact ih rest _ st1 e h
          | some e2 => exact h

theorem updatePhaseGo_append_err {σ ε} (tx : Tx σ ε) (sh : Shepherd) :
    ∀ (pre rest : Dispositions) (st st1 : CState σ) (e : ε),
      updatePhaseGo tx sh st pre = (st1, some e) →
      updatePhaseGo tx sh st (pre ++ rest) = (st1, some e) := by
  intro pre
  induction pre with
  | nil =>
    intro rest st st1 e h
    simp [updatePhaseGo] at h
  | cons p pre2 ih =>
    obtain ⟨k, dpn⟩ := p
    intro rest st st1 e h
    rw [List.cons_append]
    cases hd : dpn.desired with
    | none =>
      rw [updatePhaseGo_cons_skip _ _ _ _ _ _ (Or.inl hd)] at h ⊢
      exact ih rest st st1 e h
    | some d =>
      cases hs : dpn.stored with
      | none =>
        rw [updatePhaseGo_cons_skip _ _ _ _ _ _ (Or.inr hs)] at h ⊢
        exact ih rest st st1 e h
      | some s =>
        by_cases heq : sh.equals d s = true
        · rw [updatePhaseGo_cons_eq _ _ _ _ _ _ _ _ hd hs heq] at h ⊢
          exact ih rest st st1 e h
        · have heq2 : sh.equals d s = false := by simpa using heq
          rw [updatePhaseGo_cons_upd _ _ _ _ _ _ _ _ hd hs heq2] at h ⊢
          cases htx : tx.update st.db (sh.update s d) with
          | mk db1 oe =>
            rw [htx] at h
            cases oe with
            | none => exact ih rest _ st1 e h
            | some e2 => exact h

theorem deletePhase_count {σ ε} (tx : Tx σ ε) :
    ∀ (mp : Dispositions) (st st1 : CState σ),
      deletePhase tx st mp = (st1, none) → st1.deleted = st.deleted + countDel mp := by
  intro mp
  induction mp with
  | nil =>
    intro st st1 h
    simp only [deletePhase, Prod.mk.injEq] at h
    rw [← h.1]
    simp [countDel]
  | cons p rest ih =>
    obtain ⟨k, dpn⟩ := p
    intro st st1 h
    rw [countDel_cons]
    cases hs : dpn.stored with
    | none =>
      rw [deletePhase_cons_skip _ _ _ _ _ (Or.inl hs)] at h
      have hc : isDelDpn dpn = false := by simp [isDelDpn, hs]
      rw [ih st st1 h, hc]
      simp
    | some s =>
      cases hd : dpn.desired with
      | some d =>
        rw [deletePhase_cons_skip _ _ _ _ _ (Or.inr (by simp [hd]))] at h
        have hc : isDelDpn dpn = false := by simp [isDelDpn, hd]
        rw [ih st st1 h, hc]
        simp
      | none =>
        rw [deletePhase_cons_del _ _ _ _ _ _ hs hd] at h
        have hc : isDelDpn dpn = true := by simp [isDelDpn, hs, hd]
        cases htx : tx.delete st.db s with
        | mk db1 oe =>
          rw [htx] at h
          cases oe with
          | none =>
            have h2 := ih { st with db := db1, deleted := st.deleted + 1 } st1 h
            rw [h2, hc]
            show st.deleted + 1 + countDel rest = st.deleted + (1 + countDel rest)
            omega
          | some e => simp at h

theorem addPhase_count {σ ε} (tx : Tx σ ε) :
    ∀ (mp : Dispositions) (st st1 : CState σ),
      addPhase tx st mp = (st1, none) → st1.added = st.added + countAdd mp := by
  intro mp
  induction mp with
  | nil =>
    intro st st1 h
    simp only [addPhase, Prod.mk.injEq] at h
    rw [← h.1]
    simp [countAdd]
  | cons p rest ih =>
    obtain ⟨k, dpn⟩ := p
    intro st st1 h
    rw [countAdd_cons]
    cases hd : dpn.desired with
    | none =>
      rw [addPhase_cons_skip _ _ _ _ _ (Or.inl hd)] at h
      have hc : isAddDpn dpn = false := by simp [isAddDpn, hd]
      rw [ih st st1 h, hc]
      simp
    | some d =>
      cases hs : dpn.stored with
      | some s =>
        rw [addPhase_cons_skip _ _ _ _ _ (Or.inr (by simp [hs]))] at h
        have hc : isAddDpn dpn = false := by simp [isAddDpn, hs]
        rw [ih st st1 h, hc]
        simp
      | none =>
        rw [addPhase_cons_ins _ _ _ _ _ _ hd hs] at h
        have hc : isAddDpn dpn = true := by simp [isAddDpn, hs, hd]
        cases htx : tx.insert st.db d with
        | mk db1 oe =>
          rw [htx] at h
          cases oe with
          | none =>
            have h2 := ih { st with db := db1, added := st.added + 1 } st1 h
            rw [h2, hc]
            show st.added + 1 + countAdd rest = st.added + (1 + countAdd rest)
            omega
          | some e => simp at h

theorem updatePhaseGo_count {σ ε} (tx : Tx σ ε) (sh : Shepherd) :
    ∀ (mp : Dispositions) (st st1 : CState σ),
      updatePhaseGo tx sh st mp = (st1, none) → st1.updated = st.updated + countUpd sh mp := by
  intro mp
  induction mp with
  | nil =>
    intro st st1 h
    simp only [updatePhaseGo, Prod.mk.injEq] at h
    rw [← h.1]
    simp [countUpd]
  | cons p rest ih =>
    obtain ⟨k, dpn⟩ := p
    intro st st1 h
    rw [countUpd_cons]
    cases hd : dpn.desired with
    | none =>
      rw [updatePhaseGo_cons_skip _ _ _ _ _ _ (Or.inl hd)] at h
      have hc : isUpdDpn sh dpn = false := by simp [isUpdDpn, hd]
      rw [ih st st1 h, hc]
      simp
    | some d =>
      cases hs : dpn.stored with
      | none =>
        rw [updatePhaseGo_cons_skip _ _ _ _ _ _ (Or.inr hs)] at h
        have hc : isUpdDpn sh dpn = false := by simp [isUpdDpn, hd, hs]
        rw [ih st st1 h, hc]
        simp
      | some s =>
        by_cases heq : sh.equals d s = true
        · rw [updatePhaseGo_cons_eq _ _ _ _ _ _ _ _ hd hs heq] at h
          have hc : isUpdDpn sh dpn = false := by simp [isUpdDpn, hd, hs, heq]
          rw [ih st st1 h, hc]
          simp
        · have heq2 : sh.equals d s = false := by simpa using heq
          rw [updatePhaseGo_cons_upd _ _ _ _ _ _ _ _ hd hs heq2] at h
          have hc : isUpdDpn sh dpn = true := by simp [isUpdDpn, hd, hs, heq2]
          cases htx : tx.update st.db (sh.update s d) with
          | mk db1 oe =>
            rw [htx] at h
            cases oe with
            | none =>
              have h2 := ih { st with db := db1, updated := st.updated + 1 } st1 h
              rw [h2, hc]
              show st.updated + 1 + countUpd sh rest = st.updated + (1 + countUpd sh rest)
              omega
            | some e => simp at h

/-- C6: in each phase the first failing transaction call aborts the phase
immediately and the phase returns exactly that error, with the counter not
incremented for the failing call (the err-step clauses); no entry after a
failing prefix is processed (the append clauses); a phase touches only its
own counter and never decrements or resets it (the frame clauses); and on
success each counter grows by exactly the number of entries whose
transaction operation ran, i.e. by the number of successful operations
(the count clauses). -/
theorem c6_failure_semantics {σ ε : Type} (tx : Tx σ ε) (shep : Option Shepherd) :
    (∀ mp st, (deletePhase tx st mp).1.added = st.added
      ∧ (deletePhase tx st mp).1.updated = st.updated
      ∧ st.deleted ≤ (deletePhase tx st mp).1.deleted)
    ∧ (∀ pre rest st st1 e, deletePhase tx st pre = (st1, some e) →
        deletePhase tx st (pre ++ rest) = (st1, some e))
    ∧ (∀ mp st st1, deletePhase tx st mp = (st1, none) →
        st1.deleted = st.deleted + countDel mp)
    ∧ (∀ st k dpn rest s db1 e, dpn.stored = some s → dpn.desired = none →
        tx.delete st.db s = (db1, some e) →
        deletePhase tx st ((k, dpn) :: rest) = ({ st with db := db1 }, some e))
    ∧ (∀ mp st, (addPhase tx st mp).1.updated = st.updated
      ∧ (addPhase tx st mp).1.deleted = st.deleted
      ∧ st.added ≤ (addPhase tx st mp).1.added)
    ∧ (∀ pre rest st st1 e, addPhase tx st pre = (st1, some e) →
        addPhase tx st (pre ++ rest) = (st1, some e))
    ∧ (∀ mp st st1, addPhase tx st mp = (st1, none) → st1.added = st.added + countAdd mp)
    ∧ (∀ st k dpn rest d db1 e, dpn.desired = some d → dpn.stored = none →
        tx.insert st.db d = (db1, some e) →
        addPhase tx st ((k, dpn) :: rest) = ({ st with db := db1 }, some e))
    ∧ (∀ mp st, (updatePhase tx shep st mp).1.added = st.added
      ∧ (updatePhase tx shep st mp).1.deleted = st.deleted
      ∧ st.updated ≤ (updatePhase tx shep st mp).1.updated)
    ∧ (∀ pre rest st st1 e, updatePhase tx shep st pre = (st1, some e) →
        updatePhase tx shep st (pre ++ rest) = (st1, some e))
    ∧ (∀ mp st st1, updatePhase tx shep st mp = (st1, none) →
        st1.updated = st.updated + countUpd (resolveShepherd shep) mp)
    ∧ (∀ st k dpn rest d s db1 e, dpn.desired = some d → dpn.stored = some s →
        (resolveShepherd shep).equals d s = false →
        tx.update st.db ((resolveShepherd shep).update s d) = (db1, some e) →
        updatePhase tx shep st ((k, dpn) :: rest) = ({ st with db := db1 }, some e)) := by
  refine ⟨deletePhase_frame tx, deletePhase_append_err tx, deletePhase_count tx, ?_,
    addPhase_frame tx, addPhase_append_err tx, addPhase_count tx, ?_,
    updatePhaseGo_frame tx (resolveShepherd shep),
    updatePhaseGo_append_err tx (resolveShepherd shep),
    updatePhaseGo_count tx (resolveShepherd shep), ?_⟩
  · intro st k dpn rest s db1 e hs hd htx
    rw [deletePhase_cons_del _ _ _ _ _ _ hs hd, htx]
  · intro st k dpn rest d db1 e hd hs htx
    rw [addPhase_cons_ins _ _ _ _ _ _ hd hs, htx]
  · intro st k dpn rest d s db1 e hd hs heq htx
    show updatePhaseGo tx (resolveShepherd shep) st ((k, dpn) :: rest)
      = ({ st with db := db1 }, some e)
    rw [updatePhaseGo_cons_upd _ _ _ _ _ _ _ _ hd hs heq, htx]

/-- Witness for C6: a failing delete call on a single-entry map returns
that error and leaves every counter untouched. -/
theorem c6_failure_semantics_witness :
    deletePhase (logTx (fun _ => some 3)) ⟨[], 1, 2, 3⟩
        [("k", ⟨some ⟨"k", [], none⟩, none⟩)]
      = (⟨[Op.del ⟨"k", [], none⟩], 1, 2, 3⟩, some 3) :=
  (c6_failure_semantics (logTx (fun _ => some 3)) none).2.2.2.1
    ⟨[], 1, 2, 3⟩ "k" ⟨some ⟨"k", [], none⟩, none⟩ [] ⟨"k", [], none⟩
    [Op.del ⟨"k", [], none⟩] 3 rfl rfl (by decide)

/-- The update phase as claim C8 words it: identical to the code's
`updatePhaseGo` except that the strategy's Equals is invoked as
Equals(stored, desired), stored first. -/
def updatePhaseSpecGo (tx : Tx σ ε) (sh : Shepherd) :
    CState σ → Dispositions → CState σ × Option ε
  | st, [] => (st, none)
  | st, (_, dpn) :: rest =>
    match dpn.desired, dpn.stored with
    | some d, some s =>
      if sh.equals s d then
        updatePhaseSpecGo tx sh st rest
      else
        match tx.update st.db (sh.update s d) with
        | (db1, none) =>
          updatePhaseSpecGo tx sh { st with db := db1, updated := st.updated + 1 } rest
        | (db1, some e) => ({ st with db := db1 }, some e)
    | _, _ => updatePhaseSpecGo tx sh st rest

/-- C8 counterexample: an asymmetric strategy shows the code invokes
Equals with the desired record first, not per the claimed
Equals(stored, desired) signature: here Equals(stored, desired) is true,
so the claim predicts a skip with no transaction call and no counter
change, yet the phase issues a transaction update and increments Updated;
the run also differs from the phase built on the claim's argument order. -/
theorem c8_counterexample :
    (resolveShepherd (some ⟨fun mA _ => mA.fields.isEmpty, fun s _ => s⟩)).equals
        ⟨"k", [], none⟩ ⟨"k", [⟨1, false, false, none⟩], none⟩ = true
    ∧ updatePhase (logTx (fun _ => (none : Option Nat)))
        (some ⟨fun mA _ => mA.fields.isEmpty, fun s _ => s⟩) ⟨[], 0, 0, 0⟩
        [("k", ⟨some ⟨"k", [], none⟩, some ⟨"k", [⟨1, false, false, none⟩], none⟩⟩)]
        = (⟨[Op.upd ⟨"k", [], none⟩], 0, 1, 0⟩, none)
    ∧ updatePhase (logTx (fun _ => (none : Option Nat)))
        (some ⟨fun mA _ => mA.fields.isEmpty, fun s _ => s⟩) ⟨[], 0, 0, 0⟩
        [("k", ⟨some ⟨"k", [], none⟩, some ⟨"k", [⟨1, false, false, none⟩], none⟩⟩)]
        ≠ updatePhaseSpecGo (logTx (fun _ => (none : Option Nat)))
            ⟨fun mA _ => mA.fields.isEmpty, fun s _ => s⟩ ⟨[], 0, 0, 0⟩
            [("k", ⟨some ⟨"k", [], none⟩, some ⟨"k", [⟨1, false, false, none⟩], none⟩⟩)] := by
  refine ⟨rfl, by decide, by decide⟩

/-- C8 amended: the update phase resolves the configured strategy (the
Default Strategy when none is set), skips entries lacking a stored or a
desired record, and evaluates the strategy's Equals with the desired
record as first argument and the stored record as second
(Equals(desired, stored)); if that call reports them equal the entry is
skipped with no transaction call and no counter change, otherwise the
strategy's merge Update(stored, desired) produces the merged stored
record, the transaction's update operation persists it, and Updated is
incremented exactly when that operation succeeds, the phase aborting with
the error otherwise. -/
theorem c8_update_phase {σ ε : Type} (tx : Tx σ ε) (shep : Option Shepherd)
    (st : CState σ) (k : String) (dpn : Disposition) (rest : Dispositions) :
    (resolveShepherd none = defaultShepherd ∧ ∀ sh, resolveShepherd (some sh) = sh)
    ∧ updatePhase tx shep st [] = (st, none)
    ∧ ((dpn.desired = none ∨ dpn.stored = none) →
        updatePhase tx shep st ((k, dpn) :: rest) = updatePhase tx shep st rest)
    ∧ (∀ d s, dpn.desired = some d → dpn.stored = some s →
        ((resolveShepherd shep).equals d s = true →
          updatePhase tx shep st ((k, dpn) :: rest) = updatePhase tx shep st rest)
        ∧ ((resolveShepherd shep).equals d s = false →
            ∀ db1, (tx.update st.db ((resolveShepherd shep).update s d) = (db1, none) →
                updatePhase tx shep st ((k, dpn) :: rest)
                  = updatePhase tx shep
                      { st with db := db1, updated := st.updated + 1 } rest)
              ∧ ∀ e, tx.update st.db ((resolveShepherd shep).update s d) = (db1, some e) →
                  updatePhase tx shep st ((k, dpn) :: rest)
                    = ({ st with db := db1 }, some e))) := by
  refine ⟨⟨rfl, fun sh => rfl⟩, rfl, ?_, ?_⟩
  · intro h
    exact updatePhaseGo_cons_skip tx (resolveShepherd shep) st k dpn rest h
  · intro d s hd hs
    constructor
    · intro heq
      exact updatePhaseGo_cons_eq tx (resolveShepherd shep) st k dpn rest d s hd hs heq
    · intro heq db1
      constructor
      · intro htx
        show updatePhaseGo tx (resolveShepherd shep) st ((k, dpn) :: rest) = _
        rw [updatePhaseGo_cons_upd _ _ _ _ _ _ _ _ hd hs heq, htx]
        rfl
      · intro e htx
        show updatePhaseGo tx (resolveShepherd shep) st ((k, dpn) :: rest)
          = ({ st with db := db1 }, some e)
        rw [updatePhaseGo_cons_upd _ _ _ _ _ _ _ _ hd hs heq, htx]

/-- Witness for C8 (amended): with the default strategy and identical
stored/desired records, the update phase skips the entry. -/
theorem c8_update_phase_witness :
    updatePhase (logTx (fun _ => (none : Option Nat))) none ⟨[], 0, 0, 0⟩
        [("k", ⟨some ⟨"k", [], none⟩, some ⟨"k", [], none⟩⟩)]
      = updatePhase (logTx (fun _ => (none : Option Nat))) none ⟨[], 0, 0, 0⟩ [] :=
  (((c8_update_phase (logTx (fun _ => (none : Option Nat))) none ⟨[], 0, 0, 0⟩ "k"
      ⟨some ⟨"k", [], none⟩, some ⟨"k", [], none⟩⟩ []).2.2.2)
    ⟨"k", [], none⟩ ⟨"k", [], none⟩ rfl rfl).1 (by decide)

/-- Persistent storage keyed by primary key, for claim C9. -/
abbrev Store := List (String × Model)

def lookupStore : Store → String → Option Model
  | [], _ => none
  | (k, m) :: rest, key => if k = key then some m else lookupStore rest key

def setStore : Store → String → Model → Store
  | [], key, m => [(key, m)]
  | (k, m0) :: rest, key, m =>
    if k = key then (key, m) :: rest else (k, m0) :: setStore rest key m

def removeStore : Store → String → Store
  | [], _ => []
  | (k, m0) :: rest, key =>
    if k = key then removeStore rest key else (k, m0) :: removeStore rest key

/-- The models currently persisted, in store order; this is what the
stored-sequence iterator of a fresh Reconcile call yields. -/
def storeModels (db : Store) : List Model := db.map Prod.snd

/-- A well-formed store: every row is keyed by its model's primary key and
keys are unique. -/
def wfStore (db : Store) : Prop :=
  (∀ p ∈ db, (Prod.snd p).pk = Prod.fst p) ∧ (db.map Prod.fst).Nodup

/-- Modelled from the spec: a transaction that faithfully persists every
insert/update/delete into the keyed store and never fails — claim C9's
hypothesis that the transaction faithfully persists the first call's
effects. -/
def faithfulTx : Tx Store Unit :=
  { insert := fun db m => (setStore db m.pk m, none),
    update := fun db m => (setStore db m.pk m, none),
    delete := fun db m => (removeStore db m.pk, none) }

/-- The merged model the default shepherd persists for an update
candidate. -/
def updModel (s d : Model) : Model := { s with fields := updateT s.fields d.fields }

/-- Effect of one disposition entry on the store in the delete phase. -/
def delAct (db : Store) (p : String × Disposition) : Store :=
  match p.2.stored, p.2.desired with
  | some s, none => removeStore db s.pk
  | _, _ => db

/-- Effect of one disposition entry on the store in the add phase. -/
def addAct (db : Store) (p : String × Disposition) : Store :=
  match p.2.desired, p.2.stored with
  | some d, none => setStore db d.pk d
  | _, _ => db

/-- Effect of one disposition entry on the store in the update phase with
the default shepherd. -/
def updAct (db : Store) (p : String × Disposition) : Store :=
  match p.2.desired, p.2.stored with
  | some d, some s =>
    if equalsT d.fields s.fields then db else setStore db (updModel s d).pk (updModel s d)
  | _, _ => db

theorem delAct_skip (db : Store) (k : String) (dpn : Disposition)
    (h : dpn.stored = none ∨ dpn.desired ≠ none) : delAct db (k, dpn) = db := by
  rcases dpn with ⟨os, od⟩
  rcases h with h | h
  · have h2 : os = none := h
    subst h2
    cases od <;> rfl
  · cases hod : od with
    | none => exact absurd hod h
    | some d =>
      subst hod
      cases os <;> rfl

theorem addAct_skip (db : Store) (k : String) (dpn : Disposition)
    (h : dpn.desired = none ∨ dpn.stored ≠ none) : addAct db (k, dpn) = db := by
  rcases dpn with ⟨os, od⟩
  rcases h with h | h
  · have h2 : od = none := h
    subst h2
    cases os <;> rfl
  · cases hos : os with
    | none => exact absurd hos h
    | some s =>
      subst hos
      cases od <;> rfl

theorem updAct_skip (db : Store) (k : String) (dpn : Disposition)
    (h : dpn.desired = none ∨ dpn.stored = none) : updAct db (k, dpn) = db := by
  rcases dpn with ⟨os, od⟩
  rcases h with h | h
  · have h2 : od = none := h
    subst h2
    cases os <;> rfl
  · have h2 : os = none := h
    subst h2
    cases od <;> rfl

theorem deletePhase_faithful :
    ∀ (mp : Dispositions) (st : CState Store),
      deletePhase faithfulTx st mp
        = (⟨mp.foldl delAct st.db, st.added, st.updated, st.deleted + countDel mp⟩, none) := by
  intro mp
  induction mp with
  | nil =>
    intro st
    cases st
    simp [deletePhase, countDel, List.foldl]
  | cons p rest ih =>
    obtain ⟨k, dpn⟩ := p
    intro st
    rw [countDel_cons]
    rw [show ((k, dpn) :: rest).foldl delAct st.db
        = rest.foldl delAct (delAct st.db (k, dpn)) from rfl]
    cases hs : dpn.stored with
    | none =>
      rw [deletePhase_cons_skip _ _ _ _ _ (Or.inl hs), ih st,
        delAct_skip st.db k dpn (Or.inl hs)]
      have hc : isDelDpn dpn = false := by simp [isDelDpn, hs]
      rw [hc]
      simp
    | some s =>
      cases hd : dpn.desired with
      | some d =>
        rw [deletePhase_cons_skip _ _ _ _ _ (Or.inr (by simp [hd])), ih st,
          delAct_skip st.db k dpn (Or.inr (by simp [hd]))]
        have hc : isDelDpn dpn = false := by simp [isDelDpn, hd]
        rw [hc]
        simp
      | none =>
        have htx : faithfulTx.delete st.db s = (removeStore st.db s.pk, none) := rfl
        have hred : deletePhase faithfulTx st ((k, dpn) :: rest)
            = deletePhase faithfulTx
                { st with db := removeStore st.db s.pk, deleted := st.deleted + 1 } rest := by
          rw [deletePhase_cons_del _ _ _ _ _ _ hs hd, htx]
        have ha : delAct st.db (k, dpn) = removeStore st.db s.pk := by
          rcases dpn with ⟨os, od⟩
          have hs2 : os = some s := hs
          have hd2 : od = none := hd
          subst hs2
          subst hd2
          rfl
        have hc : isDelDpn dpn = true := by simp [isDelDpn, hs, hd]
        rw [hred, ih { st with db := removeStore st.db s.pk, deleted := st.deleted + 1 },
          ha, hc]
        simp [Nat.add_assoc]

theorem addPhase_faithful :
    ∀ (mp : Dispositions) (st : CState Store),
      addPhase faithfulTx st mp
        = (⟨mp.foldl addAct st.db, st.added + countAdd mp, st.updated, st.deleted⟩, none) := by
  intro mp
  induction mp with
  | nil =>
    intro st
    cases st
    simp [addPhase, countAdd, List.foldl]
  | cons p rest ih =>
    obtain ⟨k, dpn⟩ := p
    intro st
    rw [countAdd_cons]
    rw [show ((k, dpn) :: rest).foldl addAct st.db
        = rest.foldl addAct (addAct st.db (k, dpn)) from rfl]
    cases hd : dpn.desired with
    | none =>
      rw [addPhase_cons_skip _ _ _ _ _ (Or.inl hd), ih st,
        addAct_skip st.db k dpn (Or.inl hd)]
      have hc : isAddDpn dpn = false := by simp [isAddDpn, hd]
      rw [hc]
      simp
    | some d =>
      cases hs : dpn.stored with
      | some s =>
        rw [addPhase_cons_skip _ _ _ _ _ (Or.inr (by simp [hs])), ih st,
          addAct_skip st.db k dpn (Or.inr (by simp [hs]))]
        have hc : isAddDpn dpn = false := by simp [isAddDpn, hs]
        rw [hc]
        simp
      | none =>
        have htx : faithfulTx.insert st.db d = (setStore st.db d.pk d, none) := rfl
        have hred : addPhase faithfulTx st ((k, dpn) :: rest)
            = addPhase faithfulTx
                { st with db := setStore st.db d.pk d, added := st.added + 1 } rest := by
          rw [addPhase_cons_ins _ _ _ _ _ _ hd hs, htx]
        have ha : addAct st.db (k, dpn) = setStore st.db d.pk d := by
          rcases dpn with ⟨os, od⟩
          have hd2 : od = some d := hd
          have hs2 : os = none := hs
          subst hd2
          subst hs2
          rfl
        have hc : isAddDpn dpn = true := by simp [isAddDpn, hs, hd]
        rw [hred, ih { st with db := setStore st.db d.pk d, added := st.added + 1 }, ha, hc]
        simp [Nat.add_assoc]

theorem updatePhaseGo_faithful :
    ∀ (mp : Dispositions) (st : CState Store),
      updatePhaseGo faithfulTx defaultShepherd st mp
        = (⟨mp.foldl updAct st.db, st.added,
            st.updated + countUpd defaultShepherd mp, st.deleted⟩, none) := by
  intro mp
  induction mp with
  | nil =>
    intro st
    cases st
    simp [updatePhaseGo, countUpd, List.foldl]
  | cons p rest ih =>
    obtain ⟨k, dpn⟩ := p
    intro st
    rw [countUpd_cons]
    rw [show ((k, dpn) :: rest).foldl updAct st.db
        = rest.foldl updAct (updAct st.db (k, dpn)) from rfl]
    cases hd : dpn.desired with
    | none =>
      rw [updatePhaseGo_cons_skip _ _ _ _ _ _ (Or.inl hd), ih st,
        updAct_skip st.db k dpn (Or.inl hd)]
      have hc : isUpdDpn defaultShepherd dpn = false := by simp [isUpdDpn, hd]
      rw [hc]
      simp
    | some d =>
      cases hs : dpn.stored with
      | none =>
        rw [updatePhaseGo_cons_skip _ _ _ _ _ _ (Or.inr hs), ih st,
          updAct_skip st.db k dpn (Or.inr hs)]
        have hc : isUpdDpn defaultShepherd dpn = false := by simp [isUpdDpn, hd, hs]
        rw [hc]
        simp
      | some s =>
        have ha : updAct st.db (k, dpn)
            = if equalsT d.fields s.fields then st.db
              else setStore st.db (updModel s d).pk (updModel s d) := by
          rcases dpn with ⟨os, od⟩
          have hd2 : od = some d := hd
          have hs2 : os = some s := hs
          subst hd2
          subst hs2
          rfl
        by_cases heq : defaultShepherd.equals d s = true
        · rw [updatePhaseGo_cons_eq _ _ _ _ _ _ _ _ hd hs heq, ih st, ha]
          have heq2 : equalsT d.fields s.fields = true := heq
          have hc : isUpdDpn defaultShepherd dpn = false := by
            simp [isUpdDpn, hd, hs, heq]
          rw [heq2, hc]
          simp
        · have heq2 : defaultShepherd.equals d s = false := by simpa using heq
          have htx : faithfulTx.update st.db (defaultShepherd.update s d)
              = (setStore st.db (updModel s d).pk (updModel s d), none) := rfl
          have hred : updatePhaseGo faithfulTx defaultShepherd st ((k, dpn) :: rest)
              = updatePhaseGo faithfulTx defaultShepherd
                  { st with db := setStore st.db (updModel s d).pk (updModel s d), updated := st.updated + 1 } rest := by
            rw [updatePhaseGo_cons_upd _ _ _ _ _ _ _ _ hd hs heq2, htx]
          have heq3 : equalsT d.fields s.fields = false := heq2
          have hc : isUpdDpn defaultShepherd dpn = true := by
            simp [isUpdDpn, hd, hs, heq2]
          rw [hred, ih, ha, heq3, hc]
          simp [Nat.add_assoc]

theorem updatePhase_faithful (mp : Dispositions) (st : CState Store) :
    updatePhase faithfulTx none st mp
      = (⟨mp.foldl updAct st.db, st.added,
          st.updated + countUpd defaultShepherd mp, st.deleted⟩, none) :=
  updatePhaseGo_faithful mp st

theorem isDelDpn_false_skip (dpn : Disposition) (h : isDelDpn dpn = false) :
    dpn.stored = none ∨ dpn.desired ≠ none := by
  rcases dpn with ⟨os, od⟩
  cases os with
  | none => exact Or.inl rfl
  | some s =>
    cases od with
    | some d => exact Or.inr (by simp)
    | none => simp [isDelDpn] at h

theorem isAddDpn_false_skip (dpn : Disposition) (h : isAddDpn dpn = false) :
    dpn.desired = none ∨ dpn.stored ≠ none := by
  rcases dpn with ⟨os, od⟩
  cases od with
  | none => exact Or.inl rfl
  | some d =>
    cases os with
    | some s => exact Or.inr (by simp)
    | none => simp [isAddDpn] at h

theorem deletePhase_id {σ ε} (tx : Tx σ ε) :
    ∀ (mp : Dispositions) (st : CState σ),
      (∀ p ∈ mp, isDelDpn p.2 = false) → deletePhase tx st mp = (st, none) := by
  intro mp
  induction mp with
  | nil => intro st _; rfl
  | cons p rest ih =>
    obtain ⟨k, dpn⟩ := p
    intro st h
    rw [deletePhase_cons_skip _ _ _ _ _
      (isDelDpn_false_skip dpn (h _ (List.mem_cons_self _ _)))]
    exact ih st (fun q hq => h q (List.mem_cons_of_mem _ hq))

theorem addPhase_id {σ ε} (tx : Tx σ ε) :
    ∀ (mp : Dispositions) (st : CState σ),
      (∀ p ∈ mp, isAddDpn p.2 = false) → addPhase tx st mp = (st, none) := by
  intro mp
  induction mp with
  | nil => intro st _; rfl
  | cons p rest ih =>
    obtain ⟨k, dpn⟩ := p
    intro st h
    rw [addPhase_cons_skip _ _ _ _ _
      (isAddDpn_false_skip dpn (h _ (List.mem_cons_self _ _)))]
    exact ih st (fun q hq => h q (List.mem_cons_of_mem _ hq))

theorem updatePhaseGo_id {σ ε} (tx : Tx σ ε) (sh : Shepherd) :
    ∀ (mp : Dispositions) (st : CState σ),
      (∀ p ∈ mp, isUpdDpn sh p.2 = false) → updatePhaseGo tx sh st mp = (st, none) := by
  intro mp
  induction mp with
  | nil => intro st _; rfl
  | cons p rest ih =>
    obtain ⟨k, dpn⟩ := p
    intro st h
    have h0 := h _ (List.mem_cons_self _ _)
    have hstep : updatePhaseGo tx sh st ((k, dpn) :: rest) = updatePhaseGo tx sh st rest := by
      rcases hdd : dpn.desired with _ | d
      · exact updatePhaseGo_cons_skip _ _ _ _ _ _ (Or.inl hdd)
      · rcases hss : dpn.stored with _ | s
        · exact updatePhaseGo_cons_skip _ _ _ _ _ _ (Or.inr hss)
        · have heq : sh.equals d s = true := by
            rcases dpn with ⟨os, od⟩
            have hd2 : od = some d := hdd
            have hs2 : os = some s := hss
            subst hd2
            subst hs2
            simpa [isUpdDpn] using h0
          exact updatePhaseGo_cons_eq _ _ _ _ _ _ _ _ hdd hss heq
    rw [hstep]
    exact ih st (fun q hq => h q (List.mem_cons_of_mem _ hq))

theorem lookupStore_setStore (db : Store) (key : String) (m : Model) :
    ∀ k1, lookupStore (setStore db key m) k1
      = if key = k1 then some m else lookupStore db k1 := by
  induction db with
  | nil =>
    intro k1
    by_cases h : key = k1 <;> simp [setStore, lookupStore, h]
  | cons p rest ih =>
    obtain ⟨k0, m0⟩ := p
    intro k1
    by_cases h0 : k0 = key
    · subst h0
      by_cases h1 : k0 = k1 <;> simp [setStore, lookupStore, h1]
    · by_cases h1 : k0 = k1
      · subst h1
        have hk : ¬ key = k0 := fun he => h0 he.symm
        simp [setStore, lookupStore, h0, hk]
      · simp [setStore, lookupStore, h0, h1, ih k1]

theorem lookupStore_removeStore (db : Store) (key : String) :
    ∀ k1, lookupStore (removeStore db key) k1
      = if k1 = key then none else lookupStore db k1 := by
  induction db with
  | nil =>
    intro k1
    by_cases h : k1 = key <;> simp [removeStore, lookupStore, h]
  | cons p rest ih =>
    obtain ⟨k0, m0⟩ := p
    intro k1
    by_cases h0 : k0 = key
    · subst h0
      by_cases h1 : k1 = k0
      · subst h1
        simp [removeStore, ih k1]
      · have h2 : ¬ k0 = k1 := fun he => h1 he.symm
        simp [removeStore, lookupStore, ih k1, h1, h2]
    · by_cases h1 : k1 = k0
      · subst h1
        have h2 : ¬ k1 = key := fun he => h0 he
        simp [removeStore, lookupStore, h0, h2]
      · have h2 : ¬ k0 = k1 := fun he => h1 he.symm
        simp [removeStore, lookupStore, h0, h1, h2, ih k1]

theorem lookupStore_eq_none_iff (db : Store) (k : String) :
    lookupStore db k = none ↔ k ∉ db.map Prod.fst := by
  induction db with
  | nil => simp [lookupStore]
  | cons p rest ih =>
    obtain ⟨k0, m0⟩ := p
    by_cases h : k0 = k
    · subst h
      simp [lookupStore]
    · have h2 : ¬ k = k0 := fun he => h he.symm
      simp [lookupStore, h, h2, ih]

theorem lookupStore_mem :
    ∀ (db : Store) (k : String) (m : Model),
      lookupStore db k = some m → m ∈ storeModels db
  | [], k, m, h => by simp [lookupStore] at h
  | (k0, m0) :: rest, k, m, h => by
    by_cases h0 : k0 = k
    · subst h0
      simp [lookupStore] at h
      subst h
      simp [storeModels]
    · simp only [lookupStore, if_neg h0] at h
      have h2 := lookupStore_mem rest k m h
      simp only [storeModels, List.map_cons, List.mem_cons]
      right
      simpa [storeModels] using h2

theorem keys_setStore :
    ∀ (db : Store) (key : String) (m : Model),
      (setStore db key m).map Prod.fst
        = if (lookupStore db key).isSome then db.map Prod.fst
          else db.map Prod.fst ++ [key]
  | [], key, m => by simp [setStore, lookupStore]
  | (k0, m0) :: rest, key, m => by
    by_cases h : k0 = key
    · subst h
      simp [setStore, lookupStore]
    · by_cases h2 : (lookupStore rest key).isSome = true <;>
        simp [setStore, lookupStore, h, h2, keys_setStore rest key m]

theorem mem_setStore :
    ∀ (db : Store) (key : String) (m : Model) (p : String × Model),
      p ∈ setStore db key m → p ∈ db ∨ p = (key, m)
  | [], key, m, p, h => by
    simp only [setStore, List.mem_singleton] at h
    exact Or.inr h
  | (k0, m0) :: rest, key, m, p, h => by
    by_cases h0 : k0 = key
    · subst h0
      simp only [setStore, if_pos rfl] at h
      rcases List.mem_cons.mp h with rfl | h2
      · exact Or.inr rfl
      · exact Or.inl (List.mem_cons_of_mem _ h2)
    · simp only [setStore, if_neg h0] at h
      rcases List.mem_cons.mp h with rfl | h2
      · exact Or.inl (List.mem_cons_self _ _)
      · rcases mem_setStore rest key m p h2 with h3 | h3
        · exact Or.inl (List.mem_cons_of_mem _ h3)
        · exact Or.inr h3

theorem wf_setStore (db : Store) (m : Model) (h : wfStore db) :
    wfStore (setStore db m.pk m) := by
  obtain ⟨hpk, hnd⟩ := h
  constructor
  · intro p hp
    rcases mem_setStore db m.pk m p hp with h2 | h2
    · exact hpk p h2
    · rw [h2]
  · rw [keys_setStore]
    by_cases h2 : (lookupStore db m.pk).isSome = true
    · simp [h2, hnd]
    · have h3 : m.pk ∉ db.map Prod.fst := by
        rw [← lookupStore_eq_none_iff]
        cases hl : lookupStore db m.pk with
        | none => rfl
        | some m1 => simp [hl] at h2
      simp only [h2, if_false, Bool.false_eq_true]
      rw [List.nodup_append]
      refine ⟨hnd, List.nodup_singleton _, ?_⟩
      intro a ha hb
      rw [List.mem_singleton] at hb
      subst hb
      exact h3 ha

theorem removeStore_sublist :
    ∀ (db : Store) (key : String), List.Sublist (removeStore db key) db
  | [], key => List.Sublist.refl []
  | (k0, m0) :: rest, key => by
    by_cases h : k0 = key
    · rw [show removeStore ((k0, m0) :: rest) key = removeStore rest key by
        simp [removeStore, h]]
      exact (removeStore_sublist rest key).trans (List.sublist_cons_self _ _)
    · rw [show removeStore ((k0, m0) :: rest) key = (k0, m0) :: removeStore rest key by
        simp [removeStore, h]]
      exact List.Sublist.cons₂ _ (removeStore_sublist rest key)

theorem wf_removeStore (db : Store) (key : String) (h : wfStore db) :
    wfStore (removeStore db key) := by
  obtain ⟨hpk, hnd⟩ := h
  constructor
  · intro p hp
    exact hpk p (List.Sublist.subset (removeStore_sublist db key) hp)
  · exact List.Nodup.sublist (List.Sublist.map Prod.fst (removeStore_sublist db key)) hnd

theorem lastWithPk_models :
    ∀ (db : Store), wfStore db → ∀ k, lastWithPk (storeModels db) k = lookupStore db k
  | [], _, k => rfl
  | (k0, m0) :: rest, h, k => by
    obtain ⟨hpk, hnd⟩ := h
    have hm0 : m0.pk = k0 := hpk (k0, m0) (List.mem_cons_self _ _)
    have hnd2 := List.nodup_cons.mp (show (k0 :: rest.map Prod.fst).Nodup from hnd)
    have hwfr : wfStore rest := ⟨fun p hp => hpk p (List.mem_cons_of_mem _ hp), hnd2.2⟩
    have ih := lastWithPk_models rest hwfr
    show lastWithPk (m0 :: storeModels rest) k = if k0 = k then some m0 else lookupStore rest k
    by_cases hk : k0 = k
    · subst hk
      have hrest : lookupStore rest k0 = none := by
        rw [lookupStore_eq_none_iff]
        exact hnd2.1
      simp [lastWithPk, ih, hrest, hm0]
    · cases hl : lookupStore rest k with
      | some m1 => simp [lastWithPk, ih, hl, hk]
      | none =>
        have hne : ¬ m0.pk = k := by rw [hm0]; exact hk
        simp [lastWithPk, ih, hl, hk, hne]

theorem lookupDpn_eq_none_iff (mp : Dispositions) (k : String) :
    lookupDpn mp k = none ↔ k ∉ mp.map Prod.fst := by
  induction mp with
  | nil => simp [lookupDpn]
  | cons p rest ih =>
    obtain ⟨k0, d0⟩ := p
    by_cases h : k0 = k
    · subst h
      simp [lookupDpn]
    · have h2 : ¬ k = k0 := fun he => h he.symm
      simp [lookupDpn, h, h2, ih]

theorem lookupDpn_mem :
    ∀ (mp : Dispositions) (k : String) (dpn : Disposition),
      lookupDpn mp k = some dpn → (k, dpn) ∈ mp
  | [], k, dpn, h => by simp [lookupDpn] at h
  | (k0, d0) :: rest, k, dpn, h => by
    by_cases h0 : k0 = k
    · subst h0
      simp [lookupDpn] at h
      subst h
      exact List.mem_cons_self _ _
    · simp only [lookupDpn, if_neg h0] at h
      exact List.mem_cons_of_mem _ (lookupDpn_mem rest k dpn h)

theorem mem_lookupDpn_of_nodup :
    ∀ (mp : Dispositions), (mp.map Prod.fst).Nodup →
      ∀ k dpn, (k, dpn) ∈ mp → lookupDpn mp k = some dpn
  | [], _, k, dpn, h => by simp at h
  | (k0, d0) :: rest, hnd, k, dpn, h => by
    have hnd2 := List.nodup_cons.mp (show (k0 :: rest.map Prod.fst).Nodup from hnd)
    rcases List.mem_cons.mp h with he | hm
    · injection he with he1 he2
      subst he1
      subst he2
      simp [lookupDpn]
    · have hk : k ≠ k0 := by
        intro he
        subst he
        exact hnd2.1 (List.mem_map_of_mem Prod.fst hm)
      have h2 : ¬ k0 = k := fun he => hk he.symm
      rw [show lookupDpn ((k0, d0) :: rest) k = lookupDpn rest k by simp [lookupDpn, h2]]
      exact mem_lookupDpn_of_nodup rest hnd2.2 k dpn hm

theorem keys_setDpn :
    ∀ (mp : Dispositions) (k : String) (d : Disposition),
      (setDpn mp k d).map Prod.fst
        = if (lookupDpn mp k).isSome then mp.map Prod.fst else mp.map Prod.fst ++ [k]
  | [], k, d => by simp [setDpn, lookupDpn]
  | (k0, d0) :: rest, k, d => by
    by_cases h : k0 = k
    · subst h
      simp [setDpn, lookupDpn]
    · by_cases h2 : (lookupDpn rest k).isSome = true <;>
        simp [setDpn, lookupDpn, h, h2, keys_setDpn rest k d]

theorem nodup_keys_setDpn (mp : Dispositions) (k : String) (d : Disposition)
    (h : (mp.map Prod.fst).Nodup) : ((setDpn mp k d).map Prod.fst).Nodup := by
  rw [keys_setDpn]
  by_cases h2 : (lookupDpn mp k).isSome = true
  · simp [h2, h]
  · have h3 : k ∉ mp.map Prod.fst := by
      rw [← lookupDpn_eq_none_iff]
      cases hl : lookupDpn mp k with
      | none => rfl
      | some d1 => simp [hl] at h2
    simp only [h2, if_false, Bool.false_eq_true]
    rw [List.nodup_append]
    refine ⟨h, List.nodup_singleton _, ?_⟩
    intro a ha hb
    rw [List.mem_singleton] at hb
    subst hb
    exact h3 ha

theorem storedPass_keys_nodup :
    ∀ (s : List Model) (mp : Dispositions),
      (mp.map Prod.fst).Nodup → ((storedPass mp s).map Prod.fst).Nodup
  | [], _, h => h
  | m :: rest, mp, h =>
    storedPass_keys_nodup rest _ (nodup_keys_setDpn mp m.pk ⟨some m, none⟩ h)

theorem desiredPass_keys_nodup :
    ∀ (d : List Model) (mp : Dispositions),
      (mp.map Prod.fst).Nodup → ((desiredPass mp d).map Prod.fst).Nodup
  | [], mp, h => h
  | m :: rest, mp, h => by
    rw [desiredPass_step]
    exact desiredPass_keys_nodup rest _
      (nodup_keys_setDpn mp m.pk ⟨storedOf mp m.pk, some m⟩ h)

theorem dispositions_keys_nodup (s d : List Model) :
    ((dispositions s d).map Prod.fst).Nodup :=
  desiredPass_keys_nodup d _ (storedPass_keys_nodup s [] (by simp))

/-- Every disposition entry's models carry the entry's key as their
primary key. -/
def entryWf (p : String × Disposition) : Prop :=
  (∀ m, p.2.stored = some m → m.pk = p.1) ∧ (∀ m, p.2.desired = some m → m.pk = p.1)

theorem dispositions_entryWf (s d : List Model) :
    ∀ p ∈ dispositions s d, entryWf p := by
  intro p hp
  obtain ⟨k, dpn⟩ := p
  have hl : lookupDpn (dispositions s d) k = some dpn :=
    mem_lookupDpn_of_nodup _ (dispositions_keys_nodup s d) k dpn hp
  rw [dispositions_lookup] at hl
  constructor
  · intro m hm
    cases hld : lastWithPk d k with
    | some md =>
      rw [hld] at hl
      cases hls : lastWithPk s k with
      | some ms =>
        rw [hls] at hl
        have h2 : dpn = ⟨some ms, some md⟩ := by
          have := hl
          injection this with h3
          exact h3.symm
        rw [h2] at hm
        simp only at hm
        injection hm with h4
        subst h4
        exact (lastWithPk_mem s k _ hls).2
      | none =>
        rw [hls] at hl
        have h2 : dpn = ⟨none, some md⟩ := by
          have := hl
          injection this with h3
          exact h3.symm
        rw [h2] at hm
        simp at hm
    | none =>
      rw [hld] at hl
      cases hls : lastWithPk s k with
      | some ms =>
        rw [hls] at hl
        have h2 : dpn = ⟨some ms, none⟩ := by
          have := hl
          injection this with h3
          exact h3.symm
        rw [h2] at hm
        simp only at hm
        injection hm with h4
        subst h4
        exact (lastWithPk_mem s k _ hls).2
      | none =>
        rw [hls] at hl
        simp at hl
  · intro m hm
    cases hld : lastWithPk d k with
    | some md =>
      rw [hld] at hl
      cases hls : lastWithPk s k with
      | some ms =>
        rw [hls] at hl
        have h2 : dpn = ⟨some ms, some md⟩ := by
          have := hl
          injection this with h3
          exact h3.symm
        rw [h2] at hm
        simp only at hm
        injection hm with h4
        subst h4
        exact (lastWithPk_mem d k _ hld).2
      | none =>
        rw [hls] at hl
        have h2 : dpn = ⟨none, some md⟩ := by
          have := hl
          injection this with h3
          exact h3.symm
        rw [h2] at hm
        simp only at hm
        injection hm with h4
        subst h4
        exact (lastWithPk_mem d k _ hld).2
    | none =>
      rw [hld] at hl
      cases hls : lastWithPk s k with
      | some ms =>
        rw [hls] at hl
        have h2 : dpn = ⟨some ms, none⟩ := by
          have := hl
          injection this with h3
          exact h3.symm
        rw [h2] at hm
        simp at hm
      | none =>
        rw [hls] at hl
        simp at hl

theorem foldl_act_untouched
    (act : Store → String × Disposition → Store)
    (hact : ∀ db p k1, entryWf p → k1 ≠ p.1 →
      lookupStore (act db p) k1 = lookupStore db k1) :
    ∀ (mp : Dispositions) (db : Store) (k : String),
      (∀ p ∈ mp, entryWf p) → k ∉ mp.map Prod.fst →
      lookupStore (mp.foldl act db) k = lookupStore db k := by
  intro mp
  induction mp with
  | nil => intro db k _ _; rfl
  | cons p rest ih =>
    intro db k hwf hk
    have hk1 : k ≠ p.1 := by
      intro he
      exact hk (by rw [he]; exact List.mem_map_of_mem Prod.fst (List.mem_cons_self _ _))
    have hk2 : k ∉ rest.map Prod.fst := by
      intro hc
      exact hk (by simp [hc])
    rw [show (p :: rest).foldl act db = rest.foldl act (act db p) from rfl]
    rw [ih (act db p) k (fun q hq => hwf q (List.mem_cons_of_mem p hq)) hk2]
    exact hact db p k (hwf p (List.mem_cons_self p rest)) hk1

theorem foldl_act_lookup
    (act : Store → String × Disposition → Store)
    (hact : ∀ db p k1, entryWf p → k1 ≠ p.1 →
      lookupStore (act db p) k1 = lookupStore db k1)
    (hact2 : ∀ db1 db2 p, entryWf p → lookupStore db1 p.1 = lookupStore db2 p.1 →
      lookupStore (act db1 p) p.1 = lookupStore (act db2 p) p.1) :
    ∀ (mp : Dispositions) (db : Store) (k : String),
      (∀ p ∈ mp, entryWf p) → (mp.map Prod.fst).Nodup →
      lookupStore (mp.foldl act db) k
        = match lookupDpn mp k with
          | some dpn => lookupStore (act db (k, dpn)) k
          | none => lookupStore db k := by
  intro mp
  induction mp with
  | nil => intro db k _ _; rfl
  | cons p rest ih =>
    obtain ⟨k0, dpn0⟩ := p
    intro db k hwf hnd
    have hwf0 : entryWf (k0, dpn0) := hwf _ (List.mem_cons_self _ _)
    have hwfr : ∀ q ∈ rest, entryWf q := fun q hq => hwf q (List.mem_cons_of_mem _ hq)
    have hnd2 := List.nodup_cons.mp (show (k0 :: rest.map Prod.fst).Nodup from hnd)
    rw [show ((k0, dpn0) :: rest).foldl act db = rest.foldl act (act db (k0, dpn0)) from rfl]
    by_cases hk : k = k0
    · subst hk
      rw [foldl_act_untouched act hact rest (act db (k, dpn0)) k hwfr hnd2.1]
      simp [lookupDpn]
    · have h2 : ¬ k0 = k := fun he => hk he.symm
      rw [ih (act db (k0, dpn0)) k hwfr hnd2.2]
      have hlk : lookupStore (act db (k0, dpn0)) k = lookupStore db k :=
        hact db (k0, dpn0) k hwf0 hk
      rw [show lookupDpn ((k0, dpn0) :: rest) k = lookupDpn rest k by simp [lookupDpn, h2]]
      cases hl : lookupDpn rest k with
      | none => exact hlk
      | some dpn =>
        exact hact2 (act db (k0, dpn0)) db (k, dpn)
          (hwfr (k, dpn) (lookupDpn_mem rest k dpn hl)) hlk

theorem lookupStore_pk :
    ∀ (db : Store), wfStore db → ∀ k m, lookupStore db k = some m → m.pk = k
  | [], _, k, m, h => by simp [lookupStore] at h
  | (k0, m0) :: rest, hwf, k, m, h => by
    obtain ⟨hpk, hnd⟩ := hwf
    by_cases h0 : k0 = k
    · subst h0
      simp [lookupStore] at h
      subst h
      exact hpk (k0, m0) (List.mem_cons_self _ _)
    · simp only [lookupStore, if_neg h0] at h
      have hnd2 := List.nodup_cons.mp (show (k0 :: rest.map Prod.fst).Nodup from hnd)
      exact lookupStore_pk rest
        ⟨fun p hp => hpk p (List.mem_cons_of_mem _ hp), hnd2.2⟩ k m h

theorem delAct_untouched : ∀ (db : Store) (p : String × Disposition) (k1 : String),
    entryWf p → k1 ≠ p.1 → lookupStore (delAct db p) k1 = lookupStore db k1 := by
  intro db p k1 hwf hne
  obtain ⟨k0, dpn⟩ := p
  rcases dpn with ⟨os, od⟩
  cases os with
  | none => rfl
  | some s =>
    cases od with
    | some d0 => rfl
    | none =>
      show lookupStore (removeStore db s.pk) k1 = lookupStore db k1
      have hpk : s.pk = k0 := hwf.1 s rfl
      rw [lookupStore_removeStore, hpk, if_neg hne]

theorem delAct_own : ∀ (db1 db2 : Store) (p : String × Disposition),
    entryWf p → lookupStore db1 p.1 = lookupStore db2 p.1 →
    lookupStore (delAct db1 p) p.1 = lookupStore (delAct db2 p) p.1 := by
  intro db1 db2 p hwf h
  obtain ⟨k0, dpn⟩ := p
  rcases dpn with ⟨os, od⟩
  cases os with
  | none => exact h
  | some s =>
    cases od with
    | some d0 => exact h
    | none =>
      have hpk : s.pk = k0 := hwf.1 s rfl
      show lookupStore (removeStore db1 s.pk) k0 = lookupStore (removeStore db2 s.pk) k0
      rw [lookupStore_removeStore, lookupStore_removeStore, hpk]
      simp

theorem addAct_untouched : ∀ (db : Store) (p : String × Disposition) (k1 : String),
    entryWf p → k1 ≠ p.1 → lookupStore (addAct db p) k1 = lookupStore db k1 := by
  intro db p k1 hwf hne
  obtain ⟨k0, dpn⟩ := p
  rcases dpn with ⟨os, od⟩
  cases od with
  | none => cases os <;> rfl
  | some d0 =>
    cases os with
    | some s => rfl
    | none =>
      show lookupStore (setStore db d0.pk d0) k1 = lookupStore db k1
      have hpk : d0.pk = k0 := hwf.2 d0 rfl
      rw [lookupStore_setStore, hpk, if_neg (fun he => hne he.symm)]

theorem addAct_own : ∀ (db1 db2 : Store) (p : String × Disposition),
    entryWf p → lookupStore db1 p.1 = lookupStore db2 p.1 →
    lookupStore (addAct db1 p) p.1 = lookupStore (addAct db2 p) p.1 := by
  intro db1 db2 p hwf h
  obtain ⟨k0, dpn⟩ := p
  rcases dpn with ⟨os, od⟩
  cases od with
  | none => cases os <;> exact h
  | some d0 =>
    cases os with
    | some s => exact h
    | none =>
      show lookupStore (setStore db1 d0.pk d0) k0 = lookupStore (setStore db2 d0.pk d0) k0
      have hpk : d0.pk = k0 := hwf.2 d0 rfl
      rw [lookupStore_setStore, lookupStore_setStore, if_pos hpk, if_pos hpk]

theorem updAct_untouched : ∀ (db : Store) (p : String × Disposition) (k1 : String),
    entryWf p → k1 ≠ p.1 → lookupStore (updAct db p) k1 = lookupStore db k1 := by
  intro db p k1 hwf hne
  obtain ⟨k0, dpn⟩ := p
  rcases dpn with ⟨os, od⟩
  cases od with
  | none => cases os <;> rfl
  | some d0 =>
    cases os with
    | none => rfl
    | some s =>
      show lookupStore
          (if equalsT d0.fields s.fields then db
           else setStore db (updModel s d0).pk (updModel s d0)) k1
        = lookupStore db k1
      by_cases heq : equalsT d0.fields s.fields = true
      · rw [if_pos heq]
      · rw [if_neg heq]
        have hpk : (updModel s d0).pk = k0 := hwf.1 s rfl
        rw [lookupStore_setStore, hpk, if_neg (fun he => hne he.symm)]

theorem updAct_own : ∀ (db1 db2 : Store) (p : String × Disposition),
    entryWf p → lookupStore db1 p.1 = lookupStore db2 p.1 →
    lookupStore (updAct db1 p) p.1 = lookupStore (updAct db2 p) p.1 := by
  intro db1 db2 p hwf h
  obtain ⟨k0, dpn⟩ := p
  rcases dpn with ⟨os, od⟩
  cases od with
  | none => cases os <;> exact h
  | some d0 =>
    cases os with
    | none => exact h
    | some s =>
      show lookupStore
          (if equalsT d0.fields s.fields then db1
           else setStore db1 (updModel s d0).pk (updModel s d0)) k0
        = lookupStore
            (if equalsT d0.fields s.fields then db2
             else setStore db2 (updModel s d0).pk (updModel s d0)) k0
      by_cases heq : equalsT d0.fields s.fields = true
      · rw [if_pos heq, if_pos heq]
        exact h
      · have hpk : (updModel s d0).pk = k0 := hwf.1 s rfl
        rw [if_neg heq, if_neg heq, lookupStore_setStore, lookupStore_setStore,
          if_pos hpk, if_pos hpk]

theorem wf_delAct (db : Store) (p : String × Disposition) (h : wfStore db) :
    wfStore (delAct db p) := by
  obtain ⟨k0, dpn⟩ := p
  rcases dpn with ⟨os, od⟩
  cases os with
  | none => exact h
  | some s =>
    cases od with
    | some d0 => exact h
    | none => exact wf_removeStore db s.pk h

theorem wf_addAct (db : Store) (p : String × Disposition) (h : wfStore db) :
    wfStore (addAct db p) := by
  obtain ⟨k0, dpn⟩ := p
  rcases dpn with ⟨os, od⟩
  cases od with
  | none => cases os <;> exact h
  | some d0 =>
    cases os with
    | some s => exact h
    | none => exact wf_setStore db d0 h

theorem wf_updAct (db : Store) (p : String × Disposition) (h : wfStore db) :
    wfStore (updAct db p) := by
  obtain ⟨k0, dpn⟩ := p
  rcases dpn with ⟨os, od⟩
  cases od with
  | none => cases os <;> exact h
  | some d0 =>
    cases os with
    | none => exact h
    | some s =>
      show wfStore
        (if equalsT d0.fields s.fields then db
         else setStore db (updModel s d0).pk (updModel s d0))
      by_cases heq : equalsT d0.fields s.fields = true
      · rw [if_pos heq]; exact h
      · rw [if_neg heq]; exact wf_setStore db (updModel s d0) h

theorem wf_foldl (act : Store → String × Disposition → Store)
    (hact : ∀ db p, wfStore db → wfStore (act db p)) :
    ∀ (mp : Dispositions) (db : Store), wfStore db → wfStore (mp.foldl act db)
  | [], _, h => h
  | p :: rest, db, h => wf_foldl act hact rest (act db p) (hact db p h)

theorem equalsT_refl : ∀ fs : List Field, equalsT fs fs = true
  | [] => rfl
  | f :: fs => by
    by_cases h : ignored f = true <;> simp [equalsT, h, equalsT_refl fs]

theorem equalsT_after_update :
    ∀ fsS fsD : List Field, sameSchema fsS fsD = true →
      equalsT fsD (updateT fsS fsD) = true
  | [], [], _ => rfl
  | _ :: _, [], h => by simp [sameSchema] at h
  | [], _ :: _, h => by simp [sameSchema] at h
  | fS :: restS, fD :: restD, h => by
    simp only [sameSchema, Bool.and_eq_true] at h
    have hig : ignored fS = ignored fD := sameMeta_ignored h.1
    have ih := equalsT_after_update restS restD h.2
    show equalsT (fD :: restD)
      ((if ignored fS then fS else { fS with value := fD.value }) :: updateT restS restD) = true
    by_cases hi : ignored fD = true
    · simp [equalsT, hi, ih]
    · have hi2 : ignored fS = false := by rw [hig]; simpa using hi
      simp [equalsT, hi, hi2, ih]

theorem reconcile_faithful (s d : List Model) (st : CState Store) :
    reconcile faithfulTx none s d st
      = (⟨(dispositions s d).foldl updAct
            ((dispositions s d).foldl addAct ((dispositions s d).foldl delAct st.db)),
          st.added + countAdd (dispositions s d),
          st.updated + countUpd defaultShepherd (dispositions s d),
          st.deleted + countDel (dispositions s d)⟩, none) := by
  rw [reconcile_delete_ok faithfulTx none s d st _ (deletePhase_faithful (dispositions s d) st)]
  rw [addPhase_faithful]
  show updatePhase faithfulTx none
      ⟨(dispositions s d).foldl addAct ((dispositions s d).foldl delAct st.db),
        st.added + countAdd (dispositions s d), st.updated,
        st.deleted + countDel (dispositions s d)⟩
      (dispositions s d) = _
  rw [updatePhase_faithful]

/-- The per-key content of the store after one faithful reconcile: keys
absent from desired are gone; desired-only keys hold the desired model;
keys present in both hold the stored model when the default shepherd
found them equal, otherwise the merged model. -/
def reconciledLookup (db0 : Store) (d : List Model) (k : String) : Option Model :=
  match lastWithPk d k with
  | none => none
  | some dM =>
    match lookupStore db0 k with
    | none => some dM
    | some s0 =>
      if equalsT dM.fields s0.fields then some s0 else some (updModel s0 dM)

theorem wf_after_reconcile (db0 : Store) (d : List Model) (a u dl : Nat)
    (hwf : wfStore db0) :
    wfStore ((reconcile faithfulTx none (storeModels db0) d ⟨db0, a, u, dl⟩).1.db) := by
  rw [reconcile_faithful]
  exact wf_foldl updAct wf_updAct _ _
    (wf_foldl addAct wf_addAct _ _ (wf_foldl delAct wf_delAct _ _ hwf))

theorem lookupStore_after_reconcile (db0 : Store) (d : List Model) (a u dl : Nat)
    (hwf : wfStore db0) (k : String) :
    lookupStore ((reconcile faithfulTx none (storeModels db0) d ⟨db0, a, u, dl⟩).1.db) k
      = reconciledLookup db0 d k := by
  rw [reconcile_faithful]
  show lookupStore
      ((dispositions (storeModels db0) d).foldl updAct
        ((dispositions (storeModels db0) d).foldl addAct
          ((dispositions (storeModels db0) d).foldl delAct db0))) k
    = reconciledLookup db0 d k
  have hwfE : ∀ p ∈ dispositions (storeModels db0) d, entryWf p := dispositions_entryWf _ _
  have hnd : ((dispositions (storeModels db0) d).map Prod.fst).Nodup :=
    dispositions_keys_nodup _ _
  have hchar := dispositions_lookup (storeModels db0) d k
  rw [lastWithPk_models db0 hwf k] at hchar
  have hUP := foldl_act_lookup updAct updAct_untouched updAct_own
    (dispositions (storeModels db0) d)
    ((dispositions (storeModels db0) d).foldl addAct
      ((dispositions (storeModels db0) d).foldl delAct db0)) k hwfE hnd
  have hAD := foldl_act_lookup addAct addAct_untouched addAct_own
    (dispositions (storeModels db0) d)
    ((dispositions (storeModels db0) d).foldl delAct db0) k hwfE hnd
  have hDL := foldl_act_lookup delAct delAct_untouched delAct_own
    (dispositions (storeModels db0) d) db0 k hwfE hnd
  unfold reconciledLookup
  cases hld : lastWithPk d k with
  | some dM =>
    have hdMpk : dM.pk = k := (lastWithPk_mem d k dM hld).2
    rw [hld] at hchar
    cases hls : lookupStore db0 k with
    | some s0 =>
      rw [hls] at hchar
      have hdpn : lookupDpn (dispositions (storeModels db0) d) k
          = some ⟨some s0, some dM⟩ := hchar
      have hs0pk : s0.pk = k := lookupStore_pk db0 hwf k s0 hls
      rw [hdpn] at hUP hAD hDL
      have hDL2 : lookupStore
          ((dispositions (storeModels db0) d).foldl delAct db0) k = some s0 := by
        rw [hDL]
        show lookupStore db0 k = some s0
        exact hls
      have hAD2 : lookupStore
          ((dispositions (storeModels db0) d).foldl addAct
            ((dispositions (storeModels db0) d).foldl delAct db0)) k = some s0 := by
        rw [hAD]
        show lookupStore ((dispositions (storeModels db0) d).foldl delAct db0) k = some s0
        exact hDL2
      rw [hUP]
      show lookupStore
          (updAct
            ((dispositions (storeModels db0) d).foldl addAct
              ((dispositions (storeModels db0) d).foldl delAct db0))
            (k, ⟨some s0, some dM⟩)) k
        = if equalsT dM.fields s0.fields then some s0 else some (updModel s0 dM)
      by_cases heq : equalsT dM.fields s0.fields = true
      · rw [if_pos heq]
        show lookupStore
            (if equalsT dM.fields s0.fields then
              (dispositions (storeModels db0) d).foldl addAct
                ((dispositions (storeModels db0) d).foldl delAct db0)
             else setStore
                ((dispositions (storeModels db0) d).foldl addAct
                  ((dispositions (storeModels db0) d).foldl delAct db0))
                (updModel s0 dM).pk (updModel s0 dM)) k = some s0
        rw [if_pos heq]
        exact hAD2
      · rw [if_neg heq]
        show lookupStore
            (if equalsT dM.fields s0.fields then
              (dispositions (storeModels db0) d).foldl addAct
                ((dispositions (storeModels db0) d).foldl delAct db0)
             else setStore
                ((dispositions (storeModels db0) d).foldl addAct
                  ((dispositions (storeModels db0) d).foldl delAct db0))
                (updModel s0 dM).pk (updModel s0 dM)) k = some (updModel s0 dM)
        rw [if_neg heq, lookupStore_setStore]
        have hpk : (updModel s0 dM).pk = k := hs0pk
        rw [hpk, if_pos rfl]
    | none =>
      rw [hls] at hchar
      have hdpn : lookupDpn (dispositions (storeModels db0) d) k
          = some ⟨none, some dM⟩ := hchar
      rw [hdpn] at hUP hAD hDL
      have hDL2 : lookupStore
          ((dispositions (storeModels db0) d).foldl delAct db0) k = none := by
        rw [hDL]
        show lookupStore db0 k = none
        exact hls
      have hAD2 : lookupStore
          ((dispositions (storeModels db0) d).foldl addAct
            ((dispositions (storeModels db0) d).foldl delAct db0)) k = some dM := by
        rw [hAD]
        show lookupStore
            (setStore ((dispositions (storeModels db0) d).foldl delAct db0) dM.pk dM) k
          = some dM
        rw [lookupStore_setStore, hdMpk, if_pos rfl]
      rw [hUP]
      exact hAD2
  | none =>
    rw [hld] at hchar
    cases hls : lookupStore db0 k with
    | some s0 =>
      rw [hls] at hchar
      have hdpn : lookupDpn (dispositions (storeModels db0) d) k
          = some ⟨some s0, none⟩ := hchar
      have hs0pk : s0.pk = k := lookupStore_pk db0 hwf k s0 hls
      rw [hdpn] at hUP hAD hDL
      have hDL2 : lookupStore
          ((dispositions (storeModels db0) d).foldl delAct db0) k = none := by
        rw [hDL]
        show lookupStore (removeStore db0 s0.pk) k = none
        rw [lookupStore_removeStore, hs0pk, if_pos rfl]
      have hAD2 : lookupStore
          ((dispositions (storeModels db0) d).foldl addAct
            ((dispositions (storeModels db0) d).foldl delAct db0)) k = none := by
        rw [hAD]
        show lookupStore ((dispositions (storeModels db0) d).foldl delAct db0) k = none
        exact hDL2
      rw [hUP]
      exact hAD2
    | none =>
      rw [hls] at hchar
      have hdpn : lookupDpn (dispositions (storeModels db0) d) k = none := hchar
      rw [hdpn] at hUP hAD hDL
      have hUP2 : lookupStore
          ((dispositions (storeModels db0) d).foldl updAct
            ((dispositions (storeModels db0) d).foldl addAct
              ((dispositions (storeModels db0) d).foldl delAct db0))) k
          = lookupStore
              ((dispositions (storeModels db0) d).foldl addAct
                ((dispositions (storeModels db0) d).foldl delAct db0)) k := hUP
      have hAD2 : lookupStore
          ((dispositions (storeModels db0) d).foldl addAct
            ((dispositions (storeModels db0) d).foldl delAct db0)) k
          = lookupStore ((dispositions (storeModels db0) d).foldl delAct db0) k := hAD
      have hDL2 : lookupStore ((dispositions (storeModels db0) d).foldl delAct db0) k
          = lookupStore db0 k := hDL
      rw [hUP2, hAD2, hDL2]
      exact hls

/-- C9: with a transaction that faithfully persists effects into a keyed
store and a stored sequence re-derived from that store, running Reconcile
twice with the same desired sequence leaves storage unchanged on the
second run and increments none of the counters: the second call returns
exactly the state the first call left, with no error.  Stated for the
engine's default strategy over records of one schema. -/
theorem c9_idempotent (db0 : Store) (d : List Model) (a u dl : Nat)
    (hwf : wfStore db0)
    (hschema : ∀ m1 ∈ storeModels db0, ∀ m2 ∈ d, sameSchema m1.fields m2.fields = true) :
    (reconcile faithfulTx none (storeModels db0) d ⟨db0, a, u, dl⟩).2 = none
    ∧ reconcile faithfulTx none
        (storeModels ((reconcile faithfulTx none (storeModels db0) d ⟨db0, a, u, dl⟩).1.db)) d
        ((reconcile faithfulTx none (storeModels db0) d ⟨db0, a, u, dl⟩).1)
      = ((reconcile faithfulTx none (storeModels db0) d ⟨db0, a, u, dl⟩).1, none) := by
  constructor
  · rw [reconcile_faithful]
  · have hwf1 := wf_after_reconcile db0 d a u dl hwf
    have hlook := lookupStore_after_reconcile db0 d a u dl hwf
    have hall : ∀ p ∈ dispositions
        (storeModels ((reconcile faithfulTx none (storeModels db0) d ⟨db0, a, u, dl⟩).1.db)) d,
        isDelDpn p.2 = false ∧ isAddDpn p.2 = false
          ∧ isUpdDpn defaultShepherd p.2 = false := by
      intro p hp
      obtain ⟨k, dpn⟩ := p
      have hnd2 := dispositions_keys_nodup
        (storeModels ((reconcile faithfulTx none (storeModels db0) d ⟨db0, a, u, dl⟩).1.db)) d
      have hl := mem_lookupDpn_of_nodup _ hnd2 k dpn hp
      rw [dispositions_lookup] at hl
      rw [lastWithPk_models _ hwf1 k] at hl
      rw [hlook k] at hl
      cases hld : lastWithPk d k with
      | none =>
        rw [hld] at hl
        unfold reconciledLookup at hl
        rw [hld] at hl
        have hl2 : (none : Option Disposition) = some dpn := hl
        simp at hl2
      | some dM =>
        rw [hld] at hl
        have hdM : dM ∈ d := (lastWithPk_mem d k dM hld).1
        unfold reconciledLookup at hl
        rw [hld] at hl
        cases hls : lookupStore db0 k with
        | none =>
          rw [hls] at hl
          have hl2 : some (Disposition.mk (some dM) (some dM)) = some dpn := hl
          injection hl2 with h3
          subst h3
          refine ⟨by simp [isDelDpn], by simp [isAddDpn], ?_⟩
          show isUpdDpn defaultShepherd ⟨some dM, some dM⟩ = false
          simp [isUpdDpn, defaultShepherd, equalsT_refl]
        | some s0 =>
          rw [hls] at hl
          have hs0mem : s0 ∈ storeModels db0 := lookupStore_mem db0 k s0 hls
          have hss : sameSchema s0.fields dM.fields = true := hschema s0 hs0mem dM hdM
          have hl2 : some (Disposition.mk
              (if equalsT dM.fields s0.fields then some s0 else some (updModel s0 dM))
              (some dM)) = some dpn := hl
          by_cases heq : equalsT dM.fields s0.fields = true
          · rw [if_pos heq] at hl2
            injection hl2 with h3
            subst h3
            refine ⟨by simp [isDelDpn], by simp [isAddDpn], ?_⟩
            show isUpdDpn defaultShepherd ⟨some s0, some dM⟩ = false
            simp [isUpdDpn, defaultShepherd, heq]
          · rw [if_neg heq] at hl2
            injection hl2 with h3
            subst h3
            refine ⟨by simp [isDelDpn], by simp [isAddDpn], ?_⟩
            show isUpdDpn defaultShepherd ⟨some (updModel s0 dM), some dM⟩ = false
            have hequ : equalsT dM.fields (updModel s0 dM).fields = true := by
              show equalsT dM.fields (updateT s0.fields dM.fields) = true
              exact equalsT_after_update s0.fields dM.fields hss
            simp [isUpdDpn, defaultShepherd, hequ]
    rw [reconcile_delete_ok faithfulTx none
      (storeModels ((reconcile faithfulTx none (storeModels db0) d ⟨db0, a, u, dl⟩).1.db)) d
      _ _ (deletePhase_id faithfulTx _ _ (fun p hp => (hall p hp).1))]
    rw [addPhase_id faithfulTx _ _ (fun p hp => (hall p hp).2.1)]
    exact updatePhaseGo_id faithfulTx defaultShepherd _ _ (fun p hp => (hall p hp).2.2)

def c9wStore : Store :=
  [("a", ⟨"a", [⟨1, true, false, none⟩, ⟨2, false, false, none⟩], none⟩)]

def c9wDesired : List Model :=
  [⟨"a", [⟨1, true, false, none⟩, ⟨5, false, false, none⟩], none⟩,
   ⟨"c", [⟨9, true, false, none⟩, ⟨7, false, false, none⟩], none⟩]

/-- Witness for C9: one stored record that needs a merge plus one fresh
desired record; the second run returns the first run's state unchanged. -/
theorem c9_idempotent_witness :
    wfStore c9wStore
    ∧ ((reconcile faithfulTx none (storeModels c9wStore) c9wDesired
          ⟨c9wStore, 0, 0, 0⟩).2 = none
      ∧ reconcile faithfulTx none
          (storeModels ((reconcile faithfulTx none (storeModels c9wStore) c9wDesired
            ⟨c9wStore, 0, 0, 0⟩).1.db)) c9wDesired
          ((reconcile faithfulTx none (storeModels c9wStore) c9wDesired
            ⟨c9wStore, 0, 0, 0⟩).1)
        = ((reconcile faithfulTx none (storeModels c9wStore) c9wDesired
            ⟨c9wStore, 0, 0, 0⟩).1, none)) :=
  ⟨by unfold wfStore; decide,
    c9_idempotent c9wStore c9wDesired 0 0 0 (by unfold wfStore; decide) (by decide)⟩

end Controller
